import Mathlib

/-!
# Poll bot: store operations, command parser and command router

A shallow embedding of `src/pollbot/main.go`.

* Go strings are lists of characters (`Str`).
* A value of Go type `interface{}` coming out of the store is a `Value`.
* The Tarantool space `polls` is a map from the primary key (the poll id, field 0
  of the tuple) to the tuple: a select is a lookup, a replace overwrites, a delete
  removes the key, an insert fails on an existing key.  The tuples are held as the
  client reads them back: an integer it wrote comes back as an `int8` when it lies
  between -128 and 127 and as a wider integer type otherwise (`wireInt`).  Every stored tuple has the
  six fields of the space, so the assertion `data[0].([]interface{})` holds and the
  index expressions `tuple[0]` to `tuple[5]` are in range.  Requests on this map
  never time out, so the `err != nil` branches that follow a request are reached
  only where the map itself refuses the request (the duplicate insert).
* Go `int` is 64 bits wide: arithmetic on it wraps (`wrapInt`).
* `float64(count) / float64(totalVotes) * 100` is kept as a rational number, and the
  texts built with `fmt.Sprintf` are kept as the list of their arguments.
* `strings.Fields`, `strings.Join`, `strconv.Atoi` and the matching of the pattern
  of `parsePollData` by the package `regexp` (leftmost match, first alternative
  preferred) are written out as functions on lists of characters.
* The router is written over an arbitrary implementation of the five store
  operations (`PollOps`), so that statements about replies hold whatever the
  store returns.
-/

namespace PollBot

/-- Go `string`, as the list of its characters. -/
abbrev Str := List Char

/-- The double quote character. -/
def quoteChar : Char := Char.ofNat 34

/-- The space character U+0020. -/
def spaceChar : Char := Char.ofNat 32

/-! ## Dynamic values read from the store -/

/-- The integer types other than `int` and `int8` as which the client decodes an
integer of the store. -/
inductive IntKind where
  | uint8
  | uint16
  | uint32
  | uint64
  | int16
  | int32
  | int64
deriving DecidableEq, Repr

/-- A scalar of dynamic type.  `int` and `int8` are the two integer types the type
switches of `convertVotes` accept; `wide` is an integer of one of the other integer
types; `other` stands for a value of any further dynamic type (`float64`, `nil`,
...). -/
inductive Scalar where
  | int (n : Int)
  | int8 (n : Int)
  | wide (kind : IntKind) (n : Int)
  | str (s : Str)
  | bool (b : Bool)
  | other (tag : Nat)
deriving DecidableEq, Repr

/-- A value of type `interface{}`: a scalar, a `[]interface{}` or a
`map[interface{}]interface{}` (its entries in some iteration order). -/
inductive Value where
  | scalar (a : Scalar)
  | slice (xs : List Scalar)
  | dict (kvs : List (Scalar × Scalar))
deriving DecidableEq, Repr

/-- A tuple of the space `polls`; field `k` is what the code reads as `tuple[k]`.
Field 0 is the primary key. -/
structure Tuple where
  id : Str
  creator : Value
  title : Value
  options : Value
  votes : Value
  active : Value
deriving DecidableEq, Repr

/-- The space `polls`. -/
abbrev Store := Str → Option Tuple

/-- The empty space. -/
def emptyStore : Store := fun _ => none

/-- Select request with `Limit(1)`, `IterEq` and the key `pollID`. -/
def selectReq (s : Store) (pollID : Str) : List Tuple :=
  match s pollID with
  | some t => [t]
  | none => []

/-- Replace request: overwrite the tuple stored under the primary key of `t`. -/
def replaceReq (s : Store) (t : Tuple) : Store :=
  fun k => if k = t.id then some t else s k

/-- Delete request by key; deleting an absent key is not an error. -/
def deleteReq (s : Store) (pollID : Str) : Store :=
  fun k => if k = pollID then none else s k

/-! ## Go `int` and `map[int]int` -/

/-- Largest value of a Go `int` (64 bit). -/
def maxInt : Int := 9223372036854775807

/-- Smallest value of a Go `int` (64 bit). -/
def minInt : Int := -9223372036854775808

/-- Two's complement wrap-around of 64-bit signed arithmetic. -/
def wrapInt (x : Int) : Int := (x + 9223372036854775808) % 18446744073709551616 - 9223372036854775808

/-- Go `map[int]int` as an association list. -/
abbrev IntMap := List (Int × Int)

/-- Read `m[k]`: the zero value when the key is absent. -/
def mapGet : IntMap → Int → Int
  | [], _ => 0
  | (k', v) :: m, k => if k' = k then v else mapGet m k

/-- Assign `m[k] = v`. -/
def mapSet : IntMap → Int → Int → IntMap
  | [], k, v => [(k, v)]
  | (k', v') :: m, k, v => if k' = k then (k, v) :: m else (k', v') :: mapSet m k v

/-- A Go `int` after the round trip through the store.  The client writes an
integer in the shortest MessagePack form and reads a stored integer back in the Go
type of that form: the one-byte forms and the `int8` form (-128 to 127) come back
as `int8`, a larger non-negative value as `uint8`, `uint16`, `uint32` or `uint64`,
a smaller negative value as `int16`, `int32` or `int64`.  No stored integer comes
back as `int`. -/
def wireInt (n : Int) : Scalar :=
  if 0 ≤ n then
    if n ≤ 127 then .int8 n
    else if n ≤ 255 then .wide .uint8 n
    else if n ≤ 65535 then .wide .uint16 n
    else if n ≤ 4294967295 then .wide .uint32 n
    else .wide .uint64 n
  else if -128 ≤ n then .int8 n
  else if -32768 ≤ n then .wide .int16 n
  else if -2147483648 ≤ n then .wide .int32 n
  else .wide .int64 n

/-- The `map[int]int` of a replace request as a later select returns it: every key
and every count after the round trip through the store. -/
def encodeVotes (m : IntMap) : Value :=
  .dict (m.map fun e => (wireInt e.1, wireInt e.2))

/-! ## Errors -/

/-- The two failures of `convertVotes`. -/
inductive VoteErr where
  | invalidVoteKeyType
  | invalidVoteValueType
deriving DecidableEq, Repr

/-- The errors returned by the store operations. -/
inductive Err where
  | createFailed
  | selectFailed
  | notFound
  | invalidTupleFormat
  | parseVotes (e : VoteErr)
  | invalidOption
  | updateFailed
  | invalidOptionsFormat
  | invalidActiveFlag
  | alreadyStopped
  | stopFailed
  | deleteFailed
deriving DecidableEq, Repr

/-! ## Store operations -/

/-- The type switch of `convertVotes` on a key or on a value: `int` is taken as it
is, `int8` is converted with `int(...)`, every other type is refused. -/
def scalarInt : Scalar → Option Int
  | .int n => some n
  | .int8 n => some n
  | _ => none

/-- The loop of `convertVotes` over the entries of the raw map. -/
def convertLoop : List (Scalar × Scalar) → IntMap → Except VoteErr IntMap
  | [], votes => .ok votes
  | (k, v) :: rest, votes =>
    match scalarInt k with
    | none => .error .invalidVoteKeyType
    | some keyInt =>
      match scalarInt v with
      | none => .error .invalidVoteValueType
      | some valueInt => convertLoop rest (mapSet votes keyInt valueInt)

/-- `convertVotes`: a value that is not a `map[interface{}]interface{}` is read as
the empty map. -/
def convertVotes : Value → Except VoteErr IntMap
  | .dict kvs => convertLoop kvs []
  | _ => .ok []

/-- `createPoll`: insert a tuple with an empty vote map and `active = true`. -/
def createPoll (s : Store) (id creator title : Str) (options : List Str) : Option Err × Store :=
  let votes : IntMap := []
  let tuple : Tuple :=
    { id := id, creator := .scalar (.str creator), title := .scalar (.str title),
      options := .slice (options.map Scalar.str), votes := encodeVotes votes,
      active := .scalar (.bool true) }
  match s id with
  | some _ => (some .createFailed, s)
  | none => (none, replaceReq s tuple)

/-- The part of `votePoll` that follows the select request: `data` is what the
select returned, `s` is the store at the time of the replace request. -/
def votePollAfterSelect (s : Store) (pollID : Str) (optionIndex : Int) (data : List Tuple) :
    Option Err × Store :=
  match data with
  | [] => (some .notFound, s)
  | tuple :: _ =>
    match convertVotes tuple.votes with
    | .error e => (some (.parseVotes e), s)
    | .ok votes =>
      match tuple.options with
      | .slice options =>
        if optionIndex < 0 ∨ optionIndex ≥ (options.length : Int) then
          (some .invalidOption, s)
        else
          let votes := mapSet votes optionIndex (wrapInt (mapGet votes optionIndex + 1))
          let newTuple : Tuple :=
            { id := pollID, creator := tuple.creator, title := tuple.title,
              options := tuple.options, votes := encodeVotes votes, active := tuple.active }
          (none, replaceReq s newTuple)
      | _ => (some .invalidOption, s)

/-- `votePoll`: select the poll, increment the vote of the chosen option, replace
the tuple. -/
def votePoll (s : Store) (pollID : Str) (optionIndex : Int) : Option Err × Store :=
  votePollAfterSelect s pollID optionIndex (selectReq s pollID)

/-- The text of an option in the output of `dbShowPoll`: a string option as it is,
any other value as `fmt.Sprintf("%v", o)` prints it. -/
inductive OptionText where
  | text (s : Str)
  | formatted (o : Scalar)
deriving DecidableEq, Repr

/-- The arguments of one `Sprintf("%d: %s - %d ... (%.1f%%)\n", ...)` call of
`dbShowPoll`.  The percentage is kept in exact arithmetic. -/
structure ShowLine where
  number : Int
  option : OptionText
  count : Int
  percent : ℚ
deriving DecidableEq

/-- The response of `dbShowPoll`: the arguments of the header line and the lines
of the options, in the order in which they are appended. -/
structure ShowResponse where
  pollID : Str
  title : Value
  lines : List ShowLine
deriving DecidableEq

/-- First loop of `dbShowPoll`: the options as strings. -/
def optionText : Scalar → OptionText
  | .str s => .text s
  | o => .formatted o

/-- Second loop of `dbShowPoll`: `totalVotes += v` over the vote map. -/
def totalVotes (votes : IntMap) : Int :=
  votes.foldl (fun total e => wrapInt (total + e.2)) 0

/-- Third loop of `dbShowPoll`, from index `i` on. -/
def showLines (votes : IntMap) (total : Int) : List OptionText → Nat → List ShowLine
  | [], _ => []
  | opt :: rest, i =>
    let count := mapGet votes i
    let percent : ℚ := if total > 0 then (count : ℚ) / (total : ℚ) * 100 else 0
    { number := (i : Int) + 1, option := opt, count := count, percent := percent } ::
      showLines votes total rest (i + 1)

/-- `dbShowPoll`: select the poll and build the result lines. -/
def dbShowPoll (s : Store) (pollID : Str) : Except Err ShowResponse :=
  match selectReq s pollID with
  | [] => .error .notFound
  | tuple :: _ =>
    match tuple.options with
    | .slice optionsRaw =>
      let options := optionsRaw.map optionText
      match convertVotes tuple.votes with
      | .error e => .error (.parseVotes e)
      | .ok votes =>
        .ok { pollID := pollID, title := tuple.title,
              lines := showLines votes (totalVotes votes) options 0 }
    | _ => .error .invalidOptionsFormat

/-- `stopPoll`: set `active = false` on an active poll. -/
def stopPoll (s : Store) (pollID : Str) : Option Err × Store :=
  match selectReq s pollID with
  | [] => (some .notFound, s)
  | tuple :: _ =>
    match tuple.active with
    | .scalar (.bool active) =>
      if !active then (some .alreadyStopped, s)
      else
        let newTuple : Tuple :=
          { id := pollID, creator := tuple.creator, title := tuple.title,
            options := tuple.options, votes := tuple.votes, active := .scalar (.bool false) }
        (none, replaceReq s newTuple)
    | _ => (some .invalidActiveFlag, s)

/-- `deletePoll`: one delete request; its result tuple is discarded. -/
def deletePoll (s : Store) (pollID : Str) : Option Err × Store :=
  (none, deleteReq s pollID)

/-! ## Polls as records -/

/-- A poll record: the six fields of its tuple, with the options as a list and the
active flag as a boolean.  The tally is kept as the raw value of the store. -/
structure Poll where
  id : Str
  creator : Value
  title : Value
  options : List Scalar
  tally : Value
  active : Bool
deriving DecidableEq, Repr

/-- The tuple under which a poll is stored. -/
def Poll.toTuple (p : Poll) : Tuple :=
  { id := p.id, creator := p.creator, title := p.title, options := .slice p.options,
    votes := p.tally, active := .scalar (.bool p.active) }

/-- The number a stored integer holds, whatever its integer type. -/
def scalarNum : Scalar → Option Int
  | .int n => some n
  | .int8 n => some n
  | .wide _ n => some n
  | _ => none

/-- The count stored under key `k` in the entries of a raw tally, `0` when no entry
has this key.  Keys and counts are read as the numbers they hold, of whatever
integer type. -/
def entryCount : List (Scalar × Scalar) → Int → Int
  | [], _ => 0
  | (key, v) :: rest, k =>
    if scalarNum key = some k then (scalarNum v).getD 0 else entryCount rest k

/-- The count of option index `k` in a raw tally; an absent key counts as `0`. -/
def tallyCount : Value → Int → Int
  | .dict kvs, k => entryCount kvs k
  | _, _ => 0

/-- The sum of the counts of the entries of a raw tally, in exact arithmetic. -/
def entryTotal (kvs : List (Scalar × Scalar)) : Int :=
  (kvs.map fun e => (scalarInt e.2).getD 0).sum

/-- The total number of votes of a raw tally, in exact arithmetic. -/
def tallyTotal : Value → Int
  | .dict kvs => entryTotal kvs
  | _ => 0

/-- The integer keys of the entries of a raw tally. -/
def entryKeys (kvs : List (Scalar × Scalar)) : List Int :=
  kvs.map fun e => (scalarInt e.1).getD 0

/-- An entry of a well-formed tally: the key is an `int` or an `int8`, the count is
a non-negative `int` or `int8`. -/
def validEntry (e : Scalar × Scalar) : Bool :=
  (scalarInt e.1).isSome &&
    (match scalarInt e.2 with
     | some n => decide (0 ≤ n)
     | none => false)

/-- A well-formed tally: a map whose keys are integers of type `int` or `int8`, no
two of them equal, whose counts are non-negative integers of type `int` or `int8`,
and whose total number of votes is below the largest Go `int`, so that neither the
sum of the counts nor the next increment wraps around. -/
def wellFormedTally : Value → Bool
  | .dict kvs =>
    kvs.all validEntry && decide (entryKeys kvs).Nodup && decide (entryTotal kvs < maxInt)
  | _ => false

/-! ## Command parser -/

/-- The predicate `unicode.IsSpace`. -/
def isSpace (c : Char) : Bool :=
  let n := c.toNat
  n == 0x20 || (decide (0x09 ≤ n) && decide (n ≤ 0x0D)) || n == 0x85 || n == 0xA0 ||
    n == 0x1680 || (decide (0x2000 ≤ n) && decide (n ≤ 0x200A)) || n == 0x2028 ||
    n == 0x2029 || n == 0x202F || n == 0x205F || n == 0x3000

/-- The class `\s` of the package `regexp`: tab, line feed, form feed, carriage
return and space. -/
def isRegexSpace (c : Char) : Bool :=
  let n := c.toNat
  n == 0x09 || n == 0x0A || n == 0x0C || n == 0x0D || n == 0x20

/-- The scan of `strings.Fields`: `cur` is the field read so far. -/
def fieldsAux : Str → Str → List Str
  | [], cur => if cur.isEmpty then [] else [cur]
  | c :: cs, cur =>
    if isSpace c then
      if cur.isEmpty then fieldsAux cs [] else cur :: fieldsAux cs []
    else fieldsAux cs (cur ++ [c])

/-- `strings.Fields`: the maximal runs of characters that are not white space. -/
def fields (s : Str) : List Str := fieldsAux s []

/-- `strings.Join(args, " ")`. -/
def joinSpace : List Str → Str
  | [] => []
  | [a] => a
  | a :: b :: rest => a ++ spaceChar :: joinSpace (b :: rest)

/-- The first alternative `"([^"]+)"` of the pattern, anchored at the start of `s`:
the group and the text after the match.  The group is the maximal run of characters
other than the quote, so the alternative matches in at most one way. -/
def matchQuoted : Str → Option (Str × Str)
  | [] => none
  | c :: rest =>
    if c = quoteChar then
      match rest.takeWhile (fun d => d != quoteChar), rest.dropWhile (fun d => d != quoteChar) with
      | [], _ => none
      | _, [] => none
      | body, _ :: after => some (body, after)
    else none

/-- The second alternative `\S+` of the pattern, anchored at the start of `s`: the
match (greedy) and the text after it. -/
def matchToken (s : Str) : Option (Str × Str) :=
  match s.takeWhile (fun d => !isRegexSpace d) with
  | [] => none
  | tok => some (tok, s.dropWhile (fun d => !isRegexSpace d))

/-- The loop of `FindAllStringSubmatch(s, -1)` for the pattern `"([^"]+)"|\S+`:
successive leftmost matches, the first alternative preferred at each start.  Each
result is the pair `(match[0], match[1])`; a group that took no part in the match is
the empty string.  Every round consumes a character, `fuel` bounds the rounds. -/
def findAllFrom : Nat → Str → List (Str × Str)
  | 0, _ => []
  | _, [] => []
  | fuel + 1, c :: cs =>
    match matchQuoted (c :: cs) with
    | some (body, after) => (quoteChar :: body ++ [quoteChar], body) :: findAllFrom fuel after
    | none =>
      match matchToken (c :: cs) with
      | some (tok, after) => (tok, []) :: findAllFrom fuel after
      | none => findAllFrom fuel cs

/-- `re.FindAllStringSubmatch(s, -1)`. -/
def findAllStringSubmatch (s : Str) : List (Str × Str) := findAllFrom s.length s

/-- `parsePollData`. -/
def parsePollData (args : List Str) : List Str :=
  (findAllStringSubmatch (joinSpace args)).map fun m => if m.2 ≠ [] then m.2 else m.1

/-- Decimal digits of `strconv.Atoi`, most significant first; `acc` is the value
read so far. -/
def parseDigits : Str → Nat → Option Nat
  | [], acc => some acc
  | c :: cs, acc =>
    if 48 ≤ c.toNat ∧ c.toNat ≤ 57 then parseDigits cs (acc * 10 + (c.toNat - 48)) else none

/-- `strconv.Atoi`: an optional sign, then one or more decimal digits; the value
has to fit a Go `int`. -/
def atoi (s : Str) : Option Int :=
  let signed : Bool × Str :=
    match s with
    | c :: rest => if c.toNat = 45 then (true, rest) else if c.toNat = 43 then (false, rest) else (false, s)
    | [] => (false, s)
  match signed.2 with
  | [] => none
  | ds =>
    match parseDigits ds 0 with
    | none => none
    | some n =>
      let v : Int := if signed.1 then -(n : Int) else (n : Int)
      if minInt ≤ v ∧ v ≤ maxInt then some v else none

/-! ## Command router -/

/-- The fields of `model.Post` the router reads. -/
structure Post where
  id : Str
  userId : Str
  message : Str
deriving DecidableEq, Repr

/-- The texts of `handlePollHelp`. -/
inductive HelpText where
  | overview
  | create
  | vote
  | show
  | stop
  | delete
  | help
  | commandNotFound
deriving DecidableEq, Repr

/-- The messages the handlers send, one constructor for each text. -/
inductive Reply where
  | badCommand
  | unknownSubcommand
  | createUsage
  | createError (e : Err)
  | created (pollID title : Str) (options : List Str)
  | voteUsage
  | badOptionNumber
  | voteError (e : Err)
  | voteAccepted (optionNumber : Int)
  | showUsage
  | showError (e : Err)
  | showResult (r : ShowResponse)
  | stopUsage
  | stopError (e : Err)
  | stopped
  | deleteUsage
  | deleteError (e : Err)
  | deleted
  | helpText (t : HelpText)
deriving DecidableEq

/-- One call of `sendMsgToTalkingChannel`: the message and the post it replies to. -/
structure Sent where
  msg : Reply
  replyToId : Str
deriving DecidableEq

/-- The five store operations as the handlers call them, over a store state `σ`. -/
structure PollOps (σ : Type) where
  createPoll : σ → Str → Str → Str → List Str → Option Err × σ
  votePoll : σ → Str → Int → Option Err × σ
  dbShowPoll : σ → Str → Except Err ShowResponse
  stopPoll : σ → Str → Option Err × σ
  deletePoll : σ → Str → Option Err × σ

/-- The store operations of this file, on the map store. -/
def storeOps : PollOps Store :=
  { createPoll := createPoll, votePoll := votePoll, dbShowPoll := dbShowPoll,
    stopPoll := stopPoll, deletePoll := deletePoll }

/-- A run-time failure that ends the goroutine and the process. -/
inductive GoPanic where
  | indexOutOfRange
deriving DecidableEq, Repr

/-- `handlePollCreate`; `pollID` is the result of `generateUniqueID()`. -/
def handlePollCreate {σ : Type} (ops : PollOps σ) (pollID : Str) (s : σ) (post : Post)
    (args : List Str) : List Sent × σ :=
  match parsePollData args with
  | title :: o1 :: o2 :: more =>
    let options := o1 :: o2 :: more
    match ops.createPoll s pollID post.userId title options with
    | (some err, s') => ([⟨.createError err, post.id⟩], s')
    | (none, s') => ([⟨.created pollID title options, post.id⟩], s')
  | _ => ([⟨.createUsage, post.id⟩], s)

/-- `handlePollVote`. -/
def handlePollVote {σ : Type} (ops : PollOps σ) (s : σ) (post : Post) (args : List Str) :
    List Sent × σ :=
  match args with
  | pollID :: number :: _ =>
    match atoi number with
    | none => ([⟨.badOptionNumber, post.id⟩], s)
    | some optionNumber =>
      if optionNumber < 1 then ([⟨.badOptionNumber, post.id⟩], s)
      else
        match ops.votePoll s pollID (optionNumber - 1) with
        | (some err, s') => ([⟨.voteError err, post.id⟩], s')
        | (none, s') => ([⟨.voteAccepted optionNumber, post.id⟩], s')
  | _ => ([⟨.voteUsage, post.id⟩], s)

/-- `handlePollShow`. -/
def handlePollShow {σ : Type} (ops : PollOps σ) (s : σ) (post : Post) (args : List Str) :
    List Sent × σ :=
  match args with
  | pollID :: _ =>
    match ops.dbShowPoll s pollID with
    | .error err => ([⟨.showError err, post.id⟩], s)
    | .ok response => ([⟨.showResult response, post.id⟩], s)
  | [] => ([⟨.showUsage, post.id⟩], s)

/-- `handlePollStop`. -/
def handlePollStop {σ : Type} (ops : PollOps σ) (s : σ) (post : Post) (args : List Str) :
    List Sent × σ :=
  match args with
  | pollID :: _ =>
    match ops.stopPoll s pollID with
    | (some err, s') => ([⟨.stopError err, post.id⟩], s')
    | (none, s') => ([⟨.stopped, post.id⟩], s')
  | [] => ([⟨.stopUsage, post.id⟩], s)

/-- `handlePollDelete`. -/
def handlePollDelete {σ : Type} (ops : PollOps σ) (s : σ) (post : Post) (args : List Str) :
    List Sent × σ :=
  match args with
  | pollID :: _ =>
    match ops.deletePoll s pollID with
    | (some err, s') => ([⟨.deleteError err, post.id⟩], s')
    | (none, s') => ([⟨.deleted, post.id⟩], s')
  | [] => ([⟨.deleteUsage, post.id⟩], s)

/-- `handlePollHelp`. -/
def handlePollHelp {σ : Type} (s : σ) (post : Post) (args : List Str) : List Sent × σ :=
  let helpText : HelpText :=
    match args with
    | [] => .overview
    | a :: _ =>
      if a = "create".toList then .create
      else if a = "vote".toList then .vote
      else if a = "show".toList then .show
      else if a = "stop".toList then .stop
      else if a = "delete".toList then .delete
      else if a = "help".toList then .help
      else .commandNotFound
  ([⟨.helpText helpText, post.id⟩], s)

/-- `handlePollCommand`: the messages sent and the store afterwards, or the panic
of the index expression `args[0]`.  `pollID` is the id `generateUniqueID()` would
return. -/
def handlePollCommand {σ : Type} (ops : PollOps σ) (pollID : Str) (s : σ) (post : Post) :
    Except GoPanic (List Sent × σ) :=
  match fields post.message with
  | [] => .error .indexOutOfRange
  | first :: rest =>
    if first ≠ "/poll".toList then .ok ([], s)
    else
      match rest with
      | [] => .ok ([⟨.badCommand, post.id⟩], s)
      | subcommand :: args =>
        if subcommand = "create".toList then .ok (handlePollCreate ops pollID s post args)
        else if subcommand = "vote".toList then .ok (handlePollVote ops s post args)
        else if subcommand = "show".toList then .ok (handlePollShow ops s post args)
        else if subcommand = "stop".toList then .ok (handlePollStop ops s post args)
        else if subcommand = "delete".toList then .ok (handlePollDelete ops s post args)
        else if subcommand = "help".toList then .ok (handlePollHelp s post args)
        else .ok ([⟨.unknownSubcommand, post.id⟩], s)


/-- The entries of a raw tally as `convertVotes` reads them when every key and
every count is an `int` or an `int8`. -/
def decodeEntries (kvs : List (Scalar × Scalar)) : IntMap :=
  kvs.map fun e => ((scalarInt e.1).getD 0, (scalarInt e.2).getD 0)

/-- An entry whose key and count the client reads back as `int8` after the next
replace: the key lies between -128 and 127 and the count is at most 127. -/
def compactEntry (e : Scalar × Scalar) : Bool :=
  match scalarInt e.1, scalarInt e.2 with
  | some k, some v => decide (-128 ≤ k) && decide (k ≤ 127) && decide (v ≤ 127)
  | _, _ => false

/-- A tally all of whose keys and counts fit an `int8`. -/
def compactTally : Value → Bool
  | .dict kvs => kvs.all compactEntry
  | _ => false

/-- A vote map all of whose keys and counts fit an `int8`. -/
def SmallMap (m : IntMap) : Prop :=
  ∀ e ∈ m, -128 ≤ e.1 ∧ e.1 ≤ 127 ∧ e.2 ≤ 127

/-- A vote map with pairwise distinct keys, non-negative counts and a total below
the largest Go `int`. -/
def GoodMap (m : IntMap) : Prop :=
  (m.map Prod.fst).Nodup ∧ (∀ e ∈ m, 0 ≤ e.2) ∧ (m.map Prod.snd).sum < maxInt

/-! ## Example data -/

/-- A poll with two options, three votes for the first (counted in an `int8`) and
one vote for the second (counted in an `int`). -/
def colorPoll : Poll :=
  { id := "1742".toList, creator := .scalar (.str "ann".toList),
    title := .scalar (.str "Pick a color".toList),
    options := [.str "Red".toList, .str "Deep Blue".toList],
    tally := .dict [(.int8 0, .int8 3), (.int 1, .int 1)], active := true }

/-- A store that holds `colorPoll` and nothing else. -/
def colorStore : Store := replaceReq emptyStore colorPoll.toTuple

/-- The poll `colorPoll` after it was stopped. -/
def stoppedPoll : Poll := { colorPoll with active := false }

/-- A store that holds `stoppedPoll` and nothing else. -/
def stoppedStore : Store := replaceReq emptyStore stoppedPoll.toTuple

/-- A poll whose stored tally has a count of a dynamic type other than `int` and
`int8`. -/
def foreignCountPoll : Poll :=
  { colorPoll with tally := .dict [(.int8 0, .other 0)] }

/-- A store that holds `foreignCountPoll` and nothing else. -/
def foreignCountStore : Store := replaceReq emptyStore foreignCountPoll.toTuple

/-- A poll with 127 votes for its first option, the largest count read back as an
`int8`. -/
def fullPoll : Poll :=
  { colorPoll with tally := .dict [(.int8 0, .int8 127)] }

/-- A store that holds `fullPoll` and nothing else. -/
def fullStore : Store := replaceReq emptyStore fullPoll.toTuple

/-! ## Sequences of operations on the store -/

/-- A vote or a stop, as issued after a poll was stopped. -/
inductive PollOp where
  | vote (pollID : Str) (optionIndex : Int)
  | stop (pollID : Str)
deriving DecidableEq, Repr

/-- The store after one operation. -/
def applyOp (s : Store) : PollOp → Store
  | .vote pollID optionIndex => (votePoll s pollID optionIndex).2
  | .stop pollID => (stopPoll s pollID).2

/-- The store after a sequence of operations, run one at a time. -/
def applyOps (s : Store) (ops : List PollOp) : Store := ops.foldl applyOp s

/-! ## Calls of `votePoll` that run at the same time

`listenToEvents` starts one goroutine for each event, so several calls of `votePoll`
may be under way at once.  A call issues two requests, the select and the replace;
between the two any request of another call may be served. -/

/-- A call of `votePoll`: not yet started, between its select and its replace (with
the data the select returned), or returned (with its error). -/
inductive VoteCall where
  | pending
  | selected (data : List Tuple)
  | returned (err : Option Err)
deriving DecidableEq, Repr

/-- The next request of a call, served on the store `s`. -/
def stepCall (pollID : Str) (optionIndex : Int) (s : Store) : VoteCall → VoteCall × Store
  | .pending => (.selected (selectReq s pollID), s)
  | .selected data =>
    (.returned (votePollAfterSelect s pollID optionIndex data).1,
      (votePollAfterSelect s pollID optionIndex data).2)
  | .returned err => (.returned err, s)

/-- Goroutine `g` issues its next request. -/
def stepAt (pollID : Str) (optionIndex : Int) (st : (Nat → VoteCall) × Store) (g : Nat) :
    (Nat → VoteCall) × Store :=
  ((fun j => if j = g then (stepCall pollID optionIndex st.2 (st.1 g)).1 else st.1 j),
    (stepCall pollID optionIndex st.2 (st.1 g)).2)

/-- The calls and the store after the goroutines issued their requests in the order
of `schedule`, every call voting for `optionIndex` of `pollID`. -/
def runSchedule (pollID : Str) (optionIndex : Int) (schedule : List Nat) (s : Store) :
    (Nat → VoteCall) × Store :=
  schedule.foldl (stepAt pollID optionIndex) (fun _ => .pending, s)

/-- The schedule of `n` calls, numbered from `k`, that run one at a time: each call
issues its select and its replace before the next call starts. -/
def sequentialSchedule : Nat → Nat → List Nat
  | _, 0 => []
  | k, n + 1 => k :: k :: sequentialSchedule (k + 1) n

/-- A store that holds one poll, just created, with two options. -/
def freshStore : Store :=
  (createPoll emptyStore "1742".toList "ann".toList "Pick a color".toList
    ["Red".toList, "Deep Blue".toList]).2

/-- The poll of `freshStore`: no vote yet. -/
def freshPoll : Poll :=
  { id := "1742".toList, creator := .scalar (.str "ann".toList),
    title := .scalar (.str "Pick a color".toList),
    options := [.str "Red".toList, .str "Deep Blue".toList],
    tally := .dict [], active := true }

/-- A post with the command `/poll vote 1742 1`. -/
def votePost : Post :=
  { id := "p9".toList, userId := "bob".toList, message := "/poll vote 1742 1".toList }

/-- A post with an empty message, as a post that carries only an attachment has. -/
def emptyPost : Post :=
  { id := "p10".toList, userId := "bob".toList, message := [] }

/-- A post whose message is two spaces and a tab. -/
def blankPost : Post :=
  { id := "p11".toList, userId := "bob".toList,
    message := [spaceChar, spaceChar, Char.ofNat 9] }

/-! ## Arguments of `/poll create`, as typed and as parsed -/

/-- An argument of a command line: an unquoted token, or a string in double quotes
given by its content. -/
inductive Arg where
  | plain (tok : Str)
  | quoted (content : Str)
deriving DecidableEq, Repr

/-- The argument as it is typed in the command line. -/
def Arg.text : Arg → Str
  | .plain tok => tok
  | .quoted content => quoteChar :: content ++ [quoteChar]

/-- The argument the parser is to return: the token, or the content of the quoted
string without the quotes. -/
def Arg.value : Arg → Str
  | .plain tok => tok
  | .quoted content => content

/-- White space between two arguments: one or more white space characters. -/
def isSeparator (sep : Str) : Bool := !sep.isEmpty && sep.all isSpace

/-- Every white space character of the text is a space U+0020 and no two white
space characters are adjacent. -/
def singleSpaced : Str → Bool
  | [] => true
  | [c] => !isSpace c || c == spaceChar
  | c :: d :: rest => (!isSpace c || (c == spaceChar && !isSpace d)) && singleSpaced (d :: rest)

/-- The arguments as the specification of the parser describes them: a non-empty
token free of white space and of double quotes, or a quoted string with a non-empty
content free of double quotes. -/
def Arg.asSpecified : Arg → Bool
  | .plain tok => !tok.isEmpty && tok.all (fun c => !isSpace c && c != quoteChar)
  | .quoted content => !content.isEmpty && content.all (fun c => c != quoteChar)

/-- The arguments the parser returns unchanged: those of `Arg.asSpecified`, the
white space inside a quoted string being single spaces only. -/
def Arg.valid : Arg → Bool
  | .plain tok => !tok.isEmpty && tok.all (fun c => !isSpace c && c != quoteChar)
  | .quoted content =>
    !content.isEmpty && content.all (fun c => c != quoteChar) && singleSpaced content

/-- The text of the arguments, each one after its separator. -/
def argsText : List (Str × Arg) → Str
  | [] => []
  | p :: ps => p.1 ++ (p.2.text ++ argsText ps)

/-- The command line `/poll create` followed by the arguments. -/
def createLine (sep : Str) (pieces : List (Str × Arg)) : Str :=
  "/poll".toList ++ (sep ++ ("create".toList ++ argsText pieces))

/-- What `handlePollCreate` gets from `parsePollData` for a message: the router
splits the message with `strings.Fields` and hands `args[2:]` to the handler. -/
def createArguments (message : Str) : List Str :=
  parsePollData ((fields message).drop 2)

/-- The fields of the texts of the arguments, one argument after the other. -/
def argFields : List (Str × Arg) → List Str
  | [] => []
  | p :: ps => fields p.2.text ++ argFields ps

/-- The three arguments of the example of the specification. -/
def colorArgs : List (Str × Arg) :=
  [([spaceChar], .quoted "Pick a color".toList), ([spaceChar], .quoted "Red".toList),
   ([spaceChar], .quoted "Deep Blue".toList)]

/-- A quoted argument with two spaces in a row, after a token. -/
def wideArgs : List (Str × Arg) :=
  [([spaceChar], .quoted "a  b".toList)]

/-! # Theorems -/

/-! ## Lemmas on `int` and on vote maps -/

theorem wrapInt_of_range (x : Int) (hlo : minInt ≤ x) (hhi : x ≤ maxInt) : wrapInt x = x := by
  unfold wrapInt
  unfold minInt at hlo
  unfold maxInt at hhi
  omega

theorem mapGet_mapSet (m : IntMap) (k v k' : Int) :
    mapGet (mapSet m k v) k' = if k' = k then v else mapGet m k' := by
  induction m with
  | nil =>
    by_cases h : k = k'
    · subst h; simp [mapSet, mapGet]
    · have h' : ¬ k' = k := fun e => h e.symm
      simp [mapSet, mapGet, h, h']
  | cons e m ih =>
    obtain ⟨a, b⟩ := e
    by_cases hak : a = k
    · subst hak
      by_cases h : a = k'
      · subst h; simp [mapSet, mapGet]
      · have h' : ¬ k' = a := fun e => h e.symm
        simp [mapSet, mapGet, h, h']
    · by_cases h : a = k'
      · subst h
        have h' : ¬ a = k := hak
        simp [mapSet, mapGet, hak]
      · simp [mapSet, mapGet, hak, h, ih]

theorem mapSet_absent (m : IntMap) (k v : Int) (h : k ∉ m.map Prod.fst) :
    mapSet m k v = m ++ [(k, v)] := by
  induction m with
  | nil => rfl
  | cons e m ih =>
    obtain ⟨a, b⟩ := e
    simp only [List.map_cons, List.mem_cons, not_or] at h
    have hak : ¬ a = k := fun e => h.1 e.symm
    simp [mapSet, hak, ih h.2]

theorem mapSet_keys (m : IntMap) (k v : Int) :
    (mapSet m k v).map Prod.fst =
      if k ∈ m.map Prod.fst then m.map Prod.fst else m.map Prod.fst ++ [k] := by
  induction m with
  | nil => simp [mapSet]
  | cons e m ih =>
    obtain ⟨a, b⟩ := e
    by_cases hak : a = k
    · subst hak; simp [mapSet]
    · have hka : ¬ k = a := fun e => hak e.symm
      simp only [mapSet, hak, if_false, List.map_cons, ih, List.mem_cons, hka, false_or]
      split <;> simp

theorem mapSet_nodup (m : IntMap) (k v : Int) (h : (m.map Prod.fst).Nodup) :
    ((mapSet m k v).map Prod.fst).Nodup := by
  rw [mapSet_keys]
  split
  · exact h
  · rename_i hk
    rw [List.nodup_append]
    refine ⟨h, List.nodup_singleton k, ?_⟩
    intro a ha hb
    simp only [List.mem_singleton] at hb
    subst hb
    exact hk ha

theorem mapSet_sum (m : IntMap) (k v : Int) :
    ((mapSet m k v).map Prod.snd).sum = (m.map Prod.snd).sum - mapGet m k + v := by
  induction m with
  | nil => simp [mapSet, mapGet]
  | cons e m ih =>
    obtain ⟨a, b⟩ := e
    by_cases hak : a = k
    · subst hak
      simp only [mapSet, mapGet, if_true, List.map_cons, List.sum_cons]
      omega
    · simp only [mapSet, hak, if_false, List.map_cons, List.sum_cons, ih, mapGet]
      omega

theorem mapSet_mem (m : IntMap) (k v : Int) (e : Int × Int) (he : e ∈ mapSet m k v) :
    e ∈ m ∨ e = (k, v) := by
  induction m with
  | nil => simp [mapSet] at he; exact Or.inr he
  | cons x m ih =>
    obtain ⟨a, b⟩ := x
    by_cases hak : a = k
    · subst hak
      simp only [mapSet, if_true, List.mem_cons] at he
      rcases he with he | he
      · exact Or.inr he
      · exact Or.inl (List.mem_cons_of_mem _ he)
    · simp only [mapSet, hak, if_false, List.mem_cons] at he
      rcases he with he | he
      · exact Or.inl (by rw [he]; exact List.mem_cons_self _ _)
      · rcases ih he with h | h
        · exact Or.inl (List.mem_cons_of_mem _ h)
        · exact Or.inr h

theorem mapGet_nonneg (m : IntMap) (k : Int) (h : ∀ e ∈ m, 0 ≤ e.2) : 0 ≤ mapGet m k := by
  induction m with
  | nil => simp [mapGet]
  | cons e m ih =>
    obtain ⟨a, b⟩ := e
    simp only [mapGet]
    split
    · exact h (a, b) (List.mem_cons_self _ _)
    · exact ih (fun e he => h e (List.mem_cons_of_mem _ he))

theorem mapGet_le_sum (m : IntMap) (k : Int) (h : ∀ e ∈ m, 0 ≤ e.2) :
    mapGet m k ≤ (m.map Prod.snd).sum := by
  induction m with
  | nil => simp [mapGet]
  | cons e m ih =>
    obtain ⟨a, b⟩ := e
    have hb : 0 ≤ b := h (a, b) (List.mem_cons_self _ _)
    have hm : ∀ e ∈ m, 0 ≤ e.2 := fun e he => h e (List.mem_cons_of_mem _ he)
    have hs : 0 ≤ (m.map Prod.snd).sum :=
      List.sum_nonneg (by
        intro x hx
        obtain ⟨e, he, rfl⟩ := List.mem_map.mp hx
        exact hm e he)
    have := ih hm
    simp only [mapGet, List.map_cons, List.sum_cons]
    split <;> omega

/-! ## Reading and writing a well-formed tally -/

theorem validEntry_elim (k v : Scalar) (h : validEntry (k, v) = true) :
    ∃ ki vi, scalarInt k = some ki ∧ scalarInt v = some vi ∧ 0 ≤ vi := by
  unfold validEntry at h
  cases hk : scalarInt k with
  | none => simp [hk] at h
  | some ki =>
    cases hv : scalarInt v with
    | none => simp [hv] at h
    | some vi =>
      simp [hk, hv] at h
      exact ⟨ki, vi, rfl, rfl, h⟩

theorem convertLoop_valid (kvs : List (Scalar × Scalar)) (acc : IntMap)
    (hv : ∀ e ∈ kvs, validEntry e = true) (hn : (entryKeys kvs).Nodup)
    (hd : ∀ k ∈ entryKeys kvs, k ∉ acc.map Prod.fst) :
    convertLoop kvs acc = .ok (acc ++ decodeEntries kvs) := by
  induction kvs generalizing acc with
  | nil => simp [convertLoop, decodeEntries]
  | cons e rest ih =>
    obtain ⟨k, v⟩ := e
    obtain ⟨ki, vi, hk, hvi, _⟩ := validEntry_elim k v (hv (k, v) (List.mem_cons_self _ _))
    have hkeys : entryKeys ((k, v) :: rest) = ki :: entryKeys rest := by
      simp [entryKeys, hk]
    rw [hkeys] at hn hd
    have hn' := List.nodup_cons.mp hn
    have hki : ki ∉ acc.map Prod.fst := hd ki (List.mem_cons_self _ _)
    have hstep : convertLoop ((k, v) :: rest) acc = convertLoop rest (mapSet acc ki vi) := by
      simp [convertLoop, hk, hvi]
    rw [hstep, mapSet_absent acc ki vi hki]
    rw [ih (acc ++ [(ki, vi)]) (fun e he => hv e (List.mem_cons_of_mem _ he)) hn'.2]
    · simp [decodeEntries, hk, hvi]
    · intro k' hk' hmem
      simp only [List.map_append, List.map_cons, List.map_nil, List.mem_append,
        List.mem_singleton] at hmem
      rcases hmem with hmem | hmem
      · exact hd k' (List.mem_cons_of_mem _ hk') hmem
      · subst hmem; exact hn'.1 hk'

theorem scalarNum_of_scalarInt (a : Scalar) (n : Int) (h : scalarInt a = some n) :
    scalarNum a = some n := by
  cases a <;> simp_all [scalarInt, scalarNum]

theorem scalarNum_wireInt (n : Int) : scalarNum (wireInt n) = some n := by
  unfold wireInt
  split_ifs <;> rfl

theorem wireInt_small (n : Int) (hlo : -128 ≤ n) (hhi : n ≤ 127) : wireInt n = .int8 n := by
  unfold wireInt
  split_ifs <;> rfl

theorem entryCount_decode (kvs : List (Scalar × Scalar)) (k : Int)
    (hv : ∀ e ∈ kvs, validEntry e = true) :
    entryCount kvs k = mapGet (decodeEntries kvs) k := by
  induction kvs with
  | nil => rfl
  | cons e rest ih =>
    obtain ⟨key, v⟩ := e
    obtain ⟨ki, vi, hk, hvi, _⟩ := validEntry_elim key v (hv (key, v) (List.mem_cons_self _ _))
    have ih' := ih (fun e he => hv e (List.mem_cons_of_mem _ he))
    simp only [decodeEntries] at ih'
    simp [entryCount, decodeEntries, mapGet, hk, hvi, ih', scalarNum_of_scalarInt key ki hk,
      scalarNum_of_scalarInt v vi hvi]

theorem wellFormed_dict (raw : Value) (h : wellFormedTally raw = true) :
    ∃ kvs, raw = .dict kvs ∧ (∀ e ∈ kvs, validEntry e = true) ∧ (entryKeys kvs).Nodup ∧
      entryTotal kvs < maxInt := by
  cases raw with
  | scalar a => simp [wellFormedTally] at h
  | slice xs => simp [wellFormedTally] at h
  | dict kvs =>
    simp only [wellFormedTally, Bool.and_eq_true, List.all_eq_true, decide_eq_true_eq] at h
    exact ⟨kvs, rfl, h.1.1, h.1.2, h.2⟩

theorem convertVotes_decode (kvs : List (Scalar × Scalar))
    (hv : ∀ e ∈ kvs, validEntry e = true) (hn : (entryKeys kvs).Nodup) :
    convertVotes (.dict kvs) = .ok (decodeEntries kvs) := by
  have := convertLoop_valid kvs [] hv hn (by simp)
  simpa [convertVotes] using this

theorem convertVotes_wellFormed (raw : Value) (h : wellFormedTally raw = true) :
    ∃ m, convertVotes raw = .ok m ∧ GoodMap m ∧ (∀ k, mapGet m k = tallyCount raw k) ∧
      (m.map Prod.snd).sum = tallyTotal raw := by
  obtain ⟨kvs, rfl, hv, hn, ht⟩ := wellFormed_dict raw h
  refine ⟨decodeEntries kvs, convertVotes_decode kvs hv hn, ⟨?_, ?_, ?_⟩, ?_, ?_⟩
  · have : (decodeEntries kvs).map Prod.fst = entryKeys kvs := by
      simp [decodeEntries, entryKeys, Function.comp_def]
    rw [this]; exact hn
  · intro e he
    simp only [decodeEntries, List.mem_map] at he
    obtain ⟨x, hx, rfl⟩ := he
    obtain ⟨k, v⟩ := x
    obtain ⟨ki, vi, _, hvi, hpos⟩ := validEntry_elim k v (hv (k, v) hx)
    simp [hvi, hpos]
  · have : (decodeEntries kvs).map Prod.snd = kvs.map fun e => (scalarInt e.2).getD 0 := by
      simp [decodeEntries, Function.comp_def]
    rw [this]; exact ht
  · intro k
    exact (entryCount_decode kvs k hv).symm
  · simp [tallyTotal, entryTotal, decodeEntries, Function.comp_def]

theorem tallyCount_encode (m : IntMap) (k : Int) : tallyCount (encodeVotes m) k = mapGet m k := by
  induction m with
  | nil => rfl
  | cons e m ih =>
    obtain ⟨a, b⟩ := e
    simp only [encodeVotes, tallyCount] at ih
    simp [encodeVotes, tallyCount, entryCount, mapGet, scalarNum_wireInt, ih]

/-! ## Tallies whose keys and counts fit an `int8` -/

theorem compactEntry_elim (k v : Scalar) (h : compactEntry (k, v) = true) :
    ∃ ki vi, scalarInt k = some ki ∧ scalarInt v = some vi ∧ -128 ≤ ki ∧ ki ≤ 127 ∧ vi ≤ 127 := by
  unfold compactEntry at h
  cases hk : scalarInt k with
  | none => simp [hk] at h
  | some ki =>
    cases hv : scalarInt v with
    | none => simp [hk, hv] at h
    | some vi =>
      simp [hk, hv] at h
      exact ⟨ki, vi, rfl, rfl, h.1.1, h.1.2, h.2⟩

theorem smallMap_of_compact (raw : Value) (m : IntMap) (hwf : wellFormedTally raw = true)
    (hc : compactTally raw = true) (hconv : convertVotes raw = .ok m) : SmallMap m := by
  obtain ⟨kvs, rfl, hv, hn, _⟩ := wellFormed_dict raw hwf
  rw [convertVotes_decode kvs hv hn] at hconv
  cases hconv
  simp only [compactTally, List.all_eq_true] at hc
  intro e he
  simp only [decodeEntries, List.mem_map] at he
  obtain ⟨x, hx, rfl⟩ := he
  obtain ⟨k, v⟩ := x
  obtain ⟨ki, vi, hk, hvi, h1, h2, h3⟩ := compactEntry_elim k v (hc (k, v) hx)
  simp [hk, hvi, h1, h2, h3]

theorem small_sum_le (m : IntMap) (hsmall : SmallMap m) :
    (m.map Prod.snd).sum ≤ 127 * (m.length : Int) := by
  induction m with
  | nil => simp
  | cons e m ih =>
    have he := (hsmall e (List.mem_cons_self _ _)).2.2
    have := ih (fun x hx => hsmall x (List.mem_cons_of_mem _ hx))
    simp only [List.map_cons, List.sum_cons, List.length_cons]
    push_cast
    omega

theorem small_keys_length (m : IntMap) (hn : (m.map Prod.fst).Nodup) (hsmall : SmallMap m) :
    m.length ≤ 256 := by
  have hsub : (m.map Prod.fst).toFinset ⊆ Finset.Icc (-128 : Int) 127 := by
    intro k hk
    simp only [List.mem_toFinset, List.mem_map] at hk
    obtain ⟨e, he, rfl⟩ := hk
    have := hsmall e he
    simp only [Finset.mem_Icc]
    exact ⟨this.1, this.2.1⟩
  have hcard := Finset.card_le_card hsub
  rw [List.toFinset_card_of_nodup hn, List.length_map, Int.card_Icc] at hcard
  simpa using hcard

theorem goodMap_of_small (m : IntMap) (hn : (m.map Prod.fst).Nodup) (hpos : ∀ e ∈ m, 0 ≤ e.2)
    (hsmall : SmallMap m) : GoodMap m := by
  refine ⟨hn, hpos, ?_⟩
  have h1 := small_sum_le m hsmall
  have h2 := small_keys_length m hn hsmall
  have h3 : (m.length : Int) ≤ 256 := by exact_mod_cast h2
  unfold maxInt
  omega

theorem encodeVotes_small (m : IntMap) (hpos : ∀ e ∈ m, 0 ≤ e.2) (hsmall : SmallMap m) :
    encodeVotes m = .dict (m.map fun e => (Scalar.int8 e.1, Scalar.int8 e.2)) := by
  unfold encodeVotes
  congr 1
  apply List.map_congr_left
  intro e he
  have h := hsmall e he
  have h0 := hpos e he
  rw [wireInt_small e.1 h.1 h.2.1, wireInt_small e.2 (by omega) h.2.2]

theorem wellFormed_encode (m : IntMap) (h : GoodMap m) (hsmall : SmallMap m) :
    wellFormedTally (encodeVotes m) = true ∧ compactTally (encodeVotes m) = true := by
  obtain ⟨hn, hpos, ht⟩ := h
  rw [encodeVotes_small m hpos hsmall]
  have hkeys : entryKeys (m.map fun e => (Scalar.int8 e.1, Scalar.int8 e.2)) = m.map Prod.fst := by
    simp [entryKeys, scalarInt, Function.comp_def]
  have htot : entryTotal (m.map fun e => (Scalar.int8 e.1, Scalar.int8 e.2)) =
      (m.map Prod.snd).sum := by
    simp [entryTotal, scalarInt, Function.comp_def]
  constructor
  · simp only [wellFormedTally, Bool.and_eq_true, List.all_eq_true, decide_eq_true_eq,
      hkeys, htot]
    refine ⟨⟨?_, hn⟩, ht⟩
    intro e he
    obtain ⟨x, hx, rfl⟩ := List.mem_map.mp he
    simp [validEntry, scalarInt, hpos x hx]
  · simp only [compactTally, List.all_eq_true]
    intro e he
    obtain ⟨x, hx, rfl⟩ := List.mem_map.mp he
    have := hsmall x hx
    simp [compactEntry, scalarInt, this.1, this.2.1, this.2.2]

/-! ## `votePoll` on a stored poll -/

theorem votePoll_wellFormed (s : Store) (p : Poll) (i : Int)
    (hs : s p.id = some p.toTuple) (hwf : wellFormedTally p.tally = true)
    (hlo : 0 ≤ i) (hhi : i < (p.options.length : Int)) :
    ∃ m, convertVotes p.tally = .ok m ∧ GoodMap m ∧ (∀ k, mapGet m k = tallyCount p.tally k) ∧
      (m.map Prod.snd).sum = tallyTotal p.tally ∧
      votePoll s p.id i =
        (none, replaceReq s
          ({ p with tally := encodeVotes (mapSet m i (mapGet m i + 1)) } : Poll).toTuple) := by
  obtain ⟨m, hconv, hgood, hget, hsum⟩ := convertVotes_wellFormed p.tally hwf
  refine ⟨m, hconv, hgood, hget, hsum, ?_⟩
  have hrange : ¬ (i < 0 ∨ i ≥ (p.options.length : Int)) := by omega
  have h0 := mapGet_nonneg m i hgood.2.1
  have h1 := mapGet_le_sum m i hgood.2.1
  have h2 := hgood.2.2
  have hwrap : wrapInt (mapGet m i + 1) = mapGet m i + 1 := by
    apply wrapInt_of_range
    · unfold minInt; omega
    · omega
  simp [votePoll, selectReq, hs, votePollAfterSelect, Poll.toTuple, hconv, hrange, hwrap]

/-- The vote that takes a count from 127 to 128: the call succeeds and the store
holds the count 128 as a `uint8`; the tally is no longer one `convertVotes`
accepts. -/
theorem votePoll_at_127 :
    (votePoll fullStore fullPoll.id 0).1 = none ∧
    ((votePoll fullStore fullPoll.id 0).2 fullPoll.id).map (fun t => t.votes) =
      some (.dict [(.int8 0, .wide .uint8 128)]) ∧
    tallyCount (.dict [(.int8 0, .wide .uint8 128)]) 0 = 128 ∧
    wellFormedTally (.dict [(.int8 0, .wide .uint8 128)]) = false ∧
    convertVotes (.dict [(.int8 0, .wide .uint8 128)]) = .error VoteErr.invalidVoteValueType :=
  ⟨by decide, by decide, by decide, by decide, rfl⟩

/-! ## Votes with an index out of range -/

theorem votePoll_outOfRange (s : Store) (p : Poll) (i : Int)
    (hs : s p.id = some p.toTuple) (hout : i < 0 ∨ i ≥ (p.options.length : Int)) :
    votePoll s p.id i =
      (match convertVotes p.tally with
       | .ok _ => some Err.invalidOption
       | .error e => some (Err.parseVotes e), s) := by
  cases hconv : convertVotes p.tally with
  | error e => simp [votePoll, selectReq, hs, votePollAfterSelect, Poll.toTuple, hconv]
  | ok m => simp [votePoll, selectReq, hs, votePollAfterSelect, Poll.toTuple, hconv, hout]

/-- C3, as the code has it.  On a store that holds a poll `p`, a vote for an index
`i < 0` or `i ≥ len(p.options)` fails and writes nothing: the store is unchanged.
The error is the invalid-option error when the tally of `p` is well-formed, and in
general unless `convertVotes` refuses the tally, in which case the error is the
one of parsing the votes.  At the command level, `/poll vote <id> <n>` with `n`
that `strconv.Atoi` refuses or with `n < 1` sends the bad-option-number reply
without calling a store operation, the store being as before, and otherwise the
vote is cast for index `n - 1`. -/
theorem votePoll_rejects_outOfRange (s : Store) (p : Poll) (i : Int)
    (hs : s p.id = some p.toTuple) (hout : i < 0 ∨ i ≥ (p.options.length : Int)) :
    (votePoll s p.id i).2 = s ∧
    (wellFormedTally p.tally = true → (votePoll s p.id i).1 = some Err.invalidOption) ∧
    ((votePoll s p.id i).1 = some Err.invalidOption ∨
      ∃ e, convertVotes p.tally = .error e ∧ (votePoll s p.id i).1 = some (Err.parseVotes e)) ∧
    (∀ (σ : Type) (ops : PollOps σ) (st : σ) (post : Post) (pollID number : Str)
        (extra : List Str),
      ((atoi number = none ∨ ∃ n, atoi number = some n ∧ n < 1) →
        handlePollVote ops st post (pollID :: number :: extra) =
          ([⟨Reply.badOptionNumber, post.id⟩], st)) ∧
      (∀ n, atoi number = some n → 1 ≤ n →
        handlePollVote ops st post (pollID :: number :: extra) =
          (match (ops.votePoll st pollID (n - 1)).1 with
           | some err => [⟨Reply.voteError err, post.id⟩]
           | none => [⟨Reply.voteAccepted n, post.id⟩],
           (ops.votePoll st pollID (n - 1)).2))) := by
  have hv := votePoll_outOfRange s p i hs hout
  refine ⟨by rw [hv], ?_, ?_, ?_⟩
  · intro hwf
    obtain ⟨m, hconv, _⟩ := convertVotes_wellFormed p.tally hwf
    rw [hv, hconv]
  · cases hconv : convertVotes p.tally with
    | error e => exact Or.inr ⟨e, rfl, by rw [hv, hconv]⟩
    | ok m => exact Or.inl (by rw [hv, hconv])
  · intro σ ops st post pollID number extra
    constructor
    · rintro (h | ⟨n, h, hn⟩)
      · simp [handlePollVote, h]
      · simp [handlePollVote, h, hn]
    · intro n h hn
      have hn' : ¬ n < 1 := by omega
      simp only [handlePollVote, h, hn', if_false]
      rcases hres : ops.votePoll st pollID (n - 1) with ⟨_ | err, st'⟩ <;> simp

theorem votePoll_rejects_outOfRange_witness :
    colorStore colorPoll.id = some colorPoll.toTuple ∧
    ((2 : Int) < 0 ∨ (2 : Int) ≥ (colorPoll.options.length : Int)) ∧
    (votePoll colorStore colorPoll.id 2).2 = colorStore ∧
    (votePoll colorStore colorPoll.id 2).1 = some Err.invalidOption :=
  ⟨by decide, by decide,
    (votePoll_rejects_outOfRange colorStore colorPoll 2 (by decide) (by decide)).1,
    (votePoll_rejects_outOfRange colorStore colorPoll 2 (by decide) (by decide)).2.1 (by decide)⟩

/-- C3, as stated, fails on a stored poll whose tally `convertVotes` refuses: the
vote for the index 7 of a poll with two options returns the error of parsing the
votes, not the invalid-option error. -/
theorem votePoll_outOfRange_other_error :
    foreignCountStore foreignCountPoll.id = some foreignCountPoll.toTuple ∧
    (7 : Int) ≥ (foreignCountPoll.options.length : Int) ∧
    (votePoll foreignCountStore foreignCountPoll.id 7).1 =
      some (Err.parseVotes VoteErr.invalidVoteValueType) ∧
    (votePoll foreignCountStore foreignCountPoll.id 7).1 ≠ some Err.invalidOption := by
  decide

/-! ## Stopping a poll -/

theorem votePoll_store_cases (s : Store) (q : Str) (i : Int) :
    (votePoll s q i).2 = s ∨
      ∃ tuple votes, s q = some tuple ∧
        (votePoll s q i).2 = replaceReq s
          { id := q, creator := tuple.creator, title := tuple.title, options := tuple.options,
            votes := votes, active := tuple.active } := by
  unfold votePoll selectReq
  cases hq : s q with
  | none => left; simp [votePollAfterSelect]
  | some tuple =>
    simp only [votePollAfterSelect]
    cases hconv : convertVotes tuple.votes with
    | error e => left; rfl
    | ok m =>
      cases hopt : tuple.options with
      | scalar a => left; rfl
      | dict kvs => left; rfl
      | slice options =>
        simp only
        split
        · left; rfl
        · right
          refine ⟨tuple, encodeVotes (mapSet m i (wrapInt (mapGet m i + 1))), rfl, ?_⟩
          simp [hopt]

theorem stopPoll_store_cases (s : Store) (q : Str) :
    (stopPoll s q).2 = s ∨
      ∃ tuple, s q = some tuple ∧
        (stopPoll s q).2 = replaceReq s
          { id := q, creator := tuple.creator, title := tuple.title, options := tuple.options,
            votes := tuple.votes, active := .scalar (.bool false) } := by
  unfold stopPoll selectReq
  cases hq : s q with
  | none => left; rfl
  | some tuple =>
    simp only
    cases hact : tuple.active with
    | slice xs => left; rfl
    | dict kvs => left; rfl
    | scalar a =>
      cases a with
      | int n => left; rfl
      | int8 n => left; rfl
      | str x => left; rfl
      | other tag => left; rfl
      | wide kind n => left; rfl
      | bool b =>
        cases b with
        | false => left; rfl
        | true => right; exact ⟨tuple, rfl, rfl⟩

theorem applyOp_keeps_stopped (s : Store) (k : Str) (op : PollOp)
    (h : ∃ t, s k = some t ∧ t.active = .scalar (.bool false)) :
    ∃ t, applyOp s op k = some t ∧ t.active = .scalar (.bool false) := by
  obtain ⟨t, hk, hact⟩ := h
  cases op with
  | vote q i =>
    rcases votePoll_store_cases s q i with h | ⟨tuple, votes, hq, h⟩
    · exact ⟨t, by simp [applyOp, h, hk], hact⟩
    · by_cases hkq : k = q
      · subst hkq
        rw [hk] at hq
        cases hq
        refine ⟨{ id := k, creator := t.creator, title := t.title, options := t.options,
                  votes := votes, active := t.active }, ?_, hact⟩
        simp [applyOp, h, replaceReq]
      · exact ⟨t, by simp [applyOp, h, replaceReq, hkq, hk], hact⟩
  | stop q =>
    rcases stopPoll_store_cases s q with h | ⟨tuple, hq, h⟩
    · exact ⟨t, by simp [applyOp, h, hk], hact⟩
    · by_cases hkq : k = q
      · subst hkq
        refine ⟨{ id := k, creator := tuple.creator, title := tuple.title,
                  options := tuple.options, votes := tuple.votes,
                  active := .scalar (.bool false) }, ?_, rfl⟩
        simp [applyOp, h, replaceReq]
      · exact ⟨t, by simp [applyOp, h, replaceReq, hkq, hk], hact⟩

theorem applyOps_keeps_stopped (ops : List PollOp) (s : Store) (k : Str)
    (h : ∃ t, s k = some t ∧ t.active = .scalar (.bool false)) :
    ∃ t, applyOps s ops k = some t ∧ t.active = .scalar (.bool false) := by
  induction ops generalizing s with
  | nil => exact h
  | cons op rest ih =>
    have := ih (applyOp s op) (applyOp_keeps_stopped s k op h)
    simpa [applyOps] using this

/-- C4. On a store that holds an active poll `p`, the first `stopPoll(p.id)`
succeeds, leaves under `p.id` the record `p` with `active = false` and every other
field as before, and leaves every other key as before; the second `stopPoll(p.id)`
returns the already-stopped error and leaves the store unchanged; and after any
later sequence of votes and stops, on any poll ids and option indices, the record
under `p.id` still has `active = false`. -/
theorem stopPoll_twice (s : Store) (p : Poll) (hs : s p.id = some p.toTuple)
    (hactive : p.active = true) :
    (stopPoll s p.id).1 = none ∧
    (stopPoll s p.id).2 p.id = some ({ p with active := false } : Poll).toTuple ∧
    (∀ id, id ≠ p.id → (stopPoll s p.id).2 id = s id) ∧
    stopPoll (stopPoll s p.id).2 p.id = (some Err.alreadyStopped, (stopPoll s p.id).2) ∧
    (∀ ops : List PollOp, ∃ t, applyOps (stopPoll s p.id).2 ops p.id = some t ∧
      t.active = .scalar (.bool false)) := by
  have hstop : stopPoll s p.id = (none, replaceReq s ({ p with active := false } : Poll).toTuple) := by
    simp [stopPoll, selectReq, hs, Poll.toTuple, hactive]
  have hstored : (stopPoll s p.id).2 p.id = some ({ p with active := false } : Poll).toTuple := by
    rw [hstop]; simp [replaceReq, Poll.toTuple]
  refine ⟨by rw [hstop], hstored, ?_, ?_, ?_⟩
  · intro id hid
    rw [hstop]; simp [replaceReq, Poll.toTuple, hid]
  · generalize (stopPoll s p.id).2 = s1 at hstored
    simp [stopPoll, selectReq, hstored, Poll.toTuple]
  · intro ops
    exact applyOps_keeps_stopped ops _ p.id ⟨_, hstored, rfl⟩

theorem stopPoll_twice_witness :
    colorStore colorPoll.id = some colorPoll.toTuple ∧ colorPoll.active = true ∧
    (stopPoll colorStore colorPoll.id).1 = none ∧
    (stopPoll colorStore colorPoll.id).2 colorPoll.id = some stoppedPoll.toTuple ∧
    stopPoll (stopPoll colorStore colorPoll.id).2 colorPoll.id =
      (some Err.alreadyStopped, (stopPoll colorStore colorPoll.id).2) ∧
    (∃ t, applyOps (stopPoll colorStore colorPoll.id).2
        [PollOp.vote colorPoll.id 0, PollOp.stop colorPoll.id, PollOp.vote colorPoll.id 1]
        colorPoll.id = some t ∧ t.active = .scalar (.bool false)) :=
  have h := stopPoll_twice colorStore colorPoll (by decide) (by decide)
  ⟨by decide, by decide, h.1, h.2.1, h.2.2.2.1, h.2.2.2.2 _⟩

/-! ## Votes on a stopped poll -/

/-- C5 at a stopped poll: `votePoll` does not read the active flag.  The vote for
option index 0 of the stopped poll succeeds and the stored count of that option
goes from 3 to 4, the poll staying stopped. -/
theorem votePoll_counts_on_stopped_poll :
    stoppedStore stoppedPoll.id = some stoppedPoll.toTuple ∧ stoppedPoll.active = false ∧
    tallyCount stoppedPoll.tally 0 = 3 ∧
    (votePoll stoppedStore stoppedPoll.id 0).1 = none ∧
    ((votePoll stoppedStore stoppedPoll.id 0).2 stoppedPoll.id).map
      (fun t => (tallyCount t.votes 0, t.active)) = some (4, .scalar (.bool false)) := by
  decide

/-! ## Operations on an id without a record -/

/-- C6 on the code.  For an id without a record in the store, `votePoll`,
`dbShowPoll` and `stopPoll` return the not-found error and leave the store
unchanged, while `deletePoll` returns no error at all (and leaves the store
unchanged): it issues the delete request without looking for the record. -/
theorem absent_poll_operations (s : Store) (pollID : Str) (i : Int) (h : s pollID = none) :
    votePoll s pollID i = (some Err.notFound, s) ∧
    dbShowPoll s pollID = .error Err.notFound ∧
    stopPoll s pollID = (some Err.notFound, s) ∧
    deletePoll s pollID = (none, s) := by
  refine ⟨?_, ?_, ?_, ?_⟩
  · simp [votePoll, selectReq, h, votePollAfterSelect]
  · simp [dbShowPoll, selectReq, h]
  · simp [stopPoll, selectReq, h]
  · have : deleteReq s pollID = s := by
      funext k
      by_cases hk : k = pollID
      · subst hk; simp [deleteReq, h]
      · simp [deleteReq, hk]
    simp [deletePoll, this]

theorem absent_poll_operations_witness :
    colorStore "7".toList = none ∧
    votePoll colorStore "7".toList 0 = (some Err.notFound, colorStore) ∧
    dbShowPoll colorStore "7".toList = .error Err.notFound ∧
    stopPoll colorStore "7".toList = (some Err.notFound, colorStore) ∧
    deletePoll colorStore "7".toList = (none, colorStore) :=
  ⟨by decide, absent_poll_operations colorStore "7".toList 0 (by decide)⟩

/-! ## The results shown for a poll -/

theorem foldl_wrap_sum (m : IntMap) (acc : Int) (hpos : ∀ e ∈ m, 0 ≤ e.2) (hacc : 0 ≤ acc)
    (hmax : acc + (m.map Prod.snd).sum ≤ maxInt) :
    m.foldl (fun total e => wrapInt (total + e.2)) acc = acc + (m.map Prod.snd).sum := by
  induction m generalizing acc with
  | nil => simp
  | cons e m ih =>
    have he : 0 ≤ e.2 := hpos e (List.mem_cons_self _ _)
    have hm : ∀ x ∈ m, 0 ≤ x.2 := fun x hx => hpos x (List.mem_cons_of_mem _ hx)
    have hs : 0 ≤ (m.map Prod.snd).sum :=
      List.sum_nonneg (by
        intro x hx
        obtain ⟨y, hy, rfl⟩ := List.mem_map.mp hx
        exact hm y hy)
    simp only [List.map_cons, List.sum_cons] at hmax
    have hw : wrapInt (acc + e.2) = acc + e.2 := by
      apply wrapInt_of_range
      · unfold minInt; omega
      · omega
    simp only [List.foldl_cons, hw, List.map_cons, List.sum_cons]
    rw [ih (acc + e.2) hm (by omega) (by omega)]
    omega

theorem totalVotes_goodMap (m : IntMap) (h : GoodMap m) : totalVotes m = (m.map Prod.snd).sum := by
  have := foldl_wrap_sum m 0 h.2.1 (le_refl 0) (by have := h.2.2; omega)
  simpa [totalVotes] using this

theorem showLines_length (votes : IntMap) (total : Int) (opts : List OptionText) (start : Nat) :
    (showLines votes total opts start).length = opts.length := by
  induction opts generalizing start with
  | nil => rfl
  | cons o rest ih => simp [showLines, ih]

theorem showLines_getElem (votes : IntMap) (total : Int) (opts : List OptionText)
    (start i : Nat) (o : OptionText) (h : opts[i]? = some o) :
    (showLines votes total opts start)[i]? =
      some { number := ((start + i : Nat) : Int) + 1, option := o,
             count := mapGet votes ((start + i : Nat) : Int),
             percent := if total > 0 then
               (mapGet votes ((start + i : Nat) : Int) : ℚ) / (total : ℚ) * 100 else 0 } := by
  induction opts generalizing start i with
  | nil => simp at h
  | cons x rest ih =>
    cases i with
    | zero =>
      simp only [List.getElem?_cons_zero, Option.some.injEq] at h
      subst h
      simp [showLines]
    | succ j =>
      simp only [List.getElem?_cons_succ] at h
      have := ih (start + 1) j h
      simp only [showLines, List.getElem?_cons_succ, this]
      have e : start + 1 + j = start + (j + 1) := by omega
      rw [e]

theorem dbShowPoll_wellFormed (s : Store) (p : Poll) (hs : s p.id = some p.toTuple)
    (hwf : wellFormedTally p.tally = true) :
    ∃ r, dbShowPoll s p.id = .ok r ∧ r.pollID = p.id ∧ r.title = p.title ∧
      r.lines.length = p.options.length ∧
      (∀ (i : Nat) (o : Scalar), p.options[i]? = some o →
        r.lines[i]? =
          some { number := (i : Int) + 1, option := optionText o,
                 count := tallyCount p.tally i,
                 percent := if tallyTotal p.tally = 0 then 0
                   else 100 * (tallyCount p.tally i : ℚ) / (tallyTotal p.tally : ℚ) }) := by
  obtain ⟨m, hconv, hgood, hget, hsum⟩ := convertVotes_wellFormed p.tally hwf
  have htot : totalVotes m = tallyTotal p.tally := by rw [totalVotes_goodMap m hgood, hsum]
  have hnonneg : 0 ≤ tallyTotal p.tally := by
    rw [← hsum]
    exact List.sum_nonneg (by
      intro x hx
      obtain ⟨y, hy, rfl⟩ := List.mem_map.mp hx
      exact hgood.2.1 y hy)
  refine ⟨{ pollID := p.id, title := p.title,
            lines := showLines m (totalVotes m) (p.options.map optionText) 0 }, ?_, rfl, rfl, ?_, ?_⟩
  · simp [dbShowPoll, selectReq, hs, Poll.toTuple, hconv]
  · simp [showLines_length]
  · intro i o ho
    have ho' : (p.options.map optionText)[i]? = some (optionText o) := by
      simp [List.getElem?_map, ho]
    have := showLines_getElem m (totalVotes m) (p.options.map optionText) 0 i _ ho'
    show (showLines m (totalVotes m) (p.options.map optionText) 0)[i]? = _
    rw [this]
    simp only [Nat.zero_add, htot, hget]
    congr 2
    by_cases hz : tallyTotal p.tally = 0
    · simp [hz]
    · have hp : tallyTotal p.tally > 0 := by omega
      have hq : (tallyTotal p.tally : ℚ) ≠ 0 := by exact_mod_cast hz
      simp only [hp, if_true, hz, if_false]
      field_simp
      ring

/-- C7, as the code has it.  For a stored poll `p` with a well-formed tally,
`dbShowPoll` returns one line for each option, in stored order: line `i` (from 0)
has the number `i + 1`, the text of option `i`, the count of the tally at key `i`
(0 when the key is absent) and, in exact arithmetic, the percentage
`100 * count / total`, where `total` is the sum of all counts of the tally, and `0`
when `total` is 0.  For a stored poll whose tally `convertVotes` refuses,
`dbShowPoll` returns the error of parsing the votes.  And for a poll created by
`createPoll` under a free id, `dbShowPoll` right after the creation returns every
option with count 0 and percentage 0. -/
theorem dbShowPoll_lists_options (s : Store) (p : Poll) (hs : s p.id = some p.toTuple) :
    (wellFormedTally p.tally = true →
      ∃ r, dbShowPoll s p.id = .ok r ∧ r.lines.length = p.options.length ∧
        (∀ (i : Nat) (o : Scalar), p.options[i]? = some o →
          r.lines[i]? =
            some { number := (i : Int) + 1, option := optionText o,
                   count := tallyCount p.tally i,
                   percent := if tallyTotal p.tally = 0 then 0
                     else 100 * (tallyCount p.tally i : ℚ) / (tallyTotal p.tally : ℚ) })) ∧
    (∀ e, convertVotes p.tally = .error e → dbShowPoll s p.id = .error (Err.parseVotes e)) ∧
    (∀ (s0 : Store) (id creator title : Str) (options : List Str), s0 id = none →
      ∃ r, dbShowPoll (createPoll s0 id creator title options).2 id = .ok r ∧
        r.lines.length = options.length ∧
        (∀ (i : Nat) (o : Str), options[i]? = some o →
          r.lines[i]? =
            some { number := (i : Int) + 1, option := .text o, count := 0, percent := 0 })) := by
  refine ⟨?_, ?_, ?_⟩
  · intro hwf
    obtain ⟨r, hr, _, _, hlen, hlines⟩ := dbShowPoll_wellFormed s p hs hwf
    exact ⟨r, hr, hlen, hlines⟩
  · intro e he
    simp [dbShowPoll, selectReq, hs, Poll.toTuple, he]
  · intro s0 id creator title options hfree
    let p0 : Poll :=
      { id := id, creator := .scalar (.str creator), title := .scalar (.str title),
        options := options.map Scalar.str, tally := encodeVotes [], active := true }
    have hcreate : (createPoll s0 id creator title options).2 = replaceReq s0 p0.toTuple := by
      simp [createPoll, hfree, p0, Poll.toTuple]
    have hstored : (createPoll s0 id creator title options).2 p0.id = some p0.toTuple := by
      rw [hcreate]; simp [replaceReq, Poll.toTuple]
    have hempty : wellFormedTally p0.tally = true := by
      show wellFormedTally (encodeVotes []) = true
      decide
    obtain ⟨r, hr, _, _, hlen, hlines⟩ :=
      dbShowPoll_wellFormed (createPoll s0 id creator title options).2 p0 hstored hempty
    refine ⟨r, hr, by simpa [p0] using hlen, ?_⟩
    intro i o ho
    have ho' : p0.options[i]? = some (Scalar.str o) := by
      simp [p0, List.getElem?_map, ho]
    have := hlines i _ ho'
    simpa [p0, encodeVotes, tallyCount, entryCount, tallyTotal, entryTotal, optionText] using this

theorem dbShowPoll_lists_options_witness :
    colorStore colorPoll.id = some colorPoll.toTuple ∧ wellFormedTally colorPoll.tally = true ∧
    (∃ r, dbShowPoll colorStore colorPoll.id = .ok r ∧ r.lines.length = 2 ∧
      r.lines[0]? = some { number := 1, option := .text "Red".toList, count := 3, percent := 75 } ∧
      r.lines[1]? =
        some { number := 2, option := .text "Deep Blue".toList, count := 1, percent := 25 }) := by
  refine ⟨by decide, by decide, ?_⟩
  obtain ⟨r, hr, hlen, hlines⟩ :=
    (dbShowPoll_lists_options colorStore colorPoll (by decide)).1 (by decide)
  refine ⟨r, hr, hlen, ?_, ?_⟩
  · have := hlines 0 (.str "Red".toList) (by decide)
    rw [this]
    have h1 : tallyCount colorPoll.tally ((0 : Nat) : Int) = 3 := by decide
    have h2 : tallyTotal colorPoll.tally = 4 := by decide
    rw [h1, h2]
    norm_num [optionText]
  · have := hlines 1 (.str "Deep Blue".toList) (by decide)
    rw [this]
    have h1 : tallyCount colorPoll.tally ((1 : Nat) : Int) = 1 := by decide
    have h2 : tallyTotal colorPoll.tally = 4 := by decide
    rw [h1, h2]
    norm_num [optionText]

/-- C7, as stated, fails on a stored poll whose tally `convertVotes` refuses:
`dbShowPoll` returns the error of parsing the votes and lists no option. -/
theorem dbShowPoll_unreadable_tally :
    foreignCountStore foreignCountPoll.id = some foreignCountPoll.toTuple ∧
    foreignCountPoll.options.length = 2 ∧
    dbShowPoll foreignCountStore foreignCountPoll.id =
      .error (Err.parseVotes VoteErr.invalidVoteValueType) :=
  ⟨by decide, by decide, rfl⟩

/-! ## Votes one at a time and votes at the same time -/

theorem votePoll_step (s : Store) (p : Poll) (i : Int)
    (hs : s p.id = some p.toTuple) (hwf : wellFormedTally p.tally = true)
    (hcompact : compactTally p.tally = true)
    (hlo : 0 ≤ i) (hhi : i < (p.options.length : Int)) (hi : i ≤ 127) :
    ∃ tally : Value,
      votePoll s p.id i = (none, replaceReq s ({ p with tally := tally } : Poll).toTuple) ∧
      (∀ k, tallyCount tally k = tallyCount p.tally k + if k = i then 1 else 0) ∧
      (tallyCount p.tally i + 1 ≤ 127 →
        wellFormedTally tally = true ∧ compactTally tally = true) := by
  obtain ⟨m, hconv, hgood, hget, _, hvote⟩ := votePoll_wellFormed s p i hs hwf hlo hhi
  have hsmall := smallMap_of_compact p.tally m hwf hcompact hconv
  refine ⟨encodeVotes (mapSet m i (mapGet m i + 1)), hvote, ?_, ?_⟩
  · intro k
    rw [tallyCount_encode, mapGet_mapSet]
    by_cases hk : k = i
    · subst hk; simp [hget]
    · simp [hk, hget]
  · intro hnext
    rw [← hget] at hnext
    have h0 := mapGet_nonneg m i hgood.2.1
    have hpos : ∀ e ∈ mapSet m i (mapGet m i + 1), 0 ≤ e.2 := by
      intro e he
      rcases mapSet_mem m i _ e he with h1 | h1
      · exact hgood.2.1 e h1
      · subst h1
        show 0 ≤ mapGet m i + 1
        omega
    have hsmall' : SmallMap (mapSet m i (mapGet m i + 1)) := by
      intro e he
      rcases mapSet_mem m i _ e he with h1 | h1
      · exact hsmall e h1
      · subst h1
        exact ⟨by show -128 ≤ i; omega, hi, hnext⟩
    exact wellFormed_encode _
      (goodMap_of_small _ (mapSet_nodup m i _ hgood.1) hpos hsmall') hsmall'

theorem sequential_run (i : Int) (n : Nat) :
    ∀ (k : Nat) (calls : Nat → VoteCall) (s : Store) (p : Poll),
      (∀ g, k ≤ g → calls g = .pending) → s p.id = some p.toTuple →
      0 ≤ i → i < (p.options.length : Int) → i ≤ 127 →
      (n = 0 ∨ (wellFormedTally p.tally = true ∧ compactTally p.tally = true ∧
        tallyCount p.tally i + (n : Int) ≤ 128)) →
      ∃ tally : Value,
        (∀ g, k ≤ g → g < k + n →
          ((sequentialSchedule k n).foldl (stepAt p.id i) (calls, s)).1 g = .returned none) ∧
        ((sequentialSchedule k n).foldl (stepAt p.id i) (calls, s)).2 p.id =
          some ({ p with tally := tally } : Poll).toTuple ∧
        (∀ id, id ≠ p.id →
          ((sequentialSchedule k n).foldl (stepAt p.id i) (calls, s)).2 id = s id) ∧
        (∀ g, g < k →
          ((sequentialSchedule k n).foldl (stepAt p.id i) (calls, s)).1 g = calls g) ∧
        (∀ key, tallyCount tally key = tallyCount p.tally key + if key = i then (n : Int) else 0) := by
  induction n with
  | zero =>
    intro k calls s p _ hs _ _ _ _
    refine ⟨p.tally, ?_, ?_, ?_, ?_, ?_⟩
    · intro g h1 h2; omega
    · simpa [sequentialSchedule] using hs
    · intro id _; rfl
    · intro g _; rfl
    · intro key; split <;> simp
  | succ n ih =>
    intro k calls s p hpend hs hlo hhi hi hinv
    obtain ⟨hwf, hcompact, hroom⟩ : wellFormedTally p.tally = true ∧
        compactTally p.tally = true ∧ tallyCount p.tally i + ((n + 1 : Nat) : Int) ≤ 128 := by
      rcases hinv with h | h
      · omega
      · exact h
    obtain ⟨t1, hvote, hcount1, hnext⟩ := votePoll_step s p i hs hwf hcompact hlo hhi hi
    have hk : calls k = .pending := hpend k (le_refl k)
    have hstep2 : stepAt p.id i (stepAt p.id i (calls, s) k) k =
        ((fun j => if j = k then VoteCall.returned none else calls j),
          replaceReq s ({ p with tally := t1 } : Poll).toTuple) := by
      have hv : votePollAfterSelect s p.id i (selectReq s p.id) =
          (none, replaceReq s ({ p with tally := t1 } : Poll).toTuple) := hvote
      simp only [stepAt, stepCall, hk, if_true, hv]
      congr 1
      funext j
      by_cases hj : j = k <;> simp [hj]
    have hfold : (sequentialSchedule k (n + 1)).foldl (stepAt p.id i) (calls, s) =
        (sequentialSchedule (k + 1) n).foldl (stepAt p.id i)
          ((fun j => if j = k then VoteCall.returned none else calls j),
            replaceReq s ({ p with tally := t1 } : Poll).toTuple) := by
      simp only [sequentialSchedule, List.foldl_cons, hstep2]
    have hinv1 : n = 0 ∨ (wellFormedTally t1 = true ∧ compactTally t1 = true ∧
        tallyCount t1 i + (n : Int) ≤ 128) := by
      by_cases hn : n = 0
      · exact Or.inl hn
      · right
        have hn1 : (1 : Int) ≤ (n : Int) := by
          have : 1 ≤ n := Nat.one_le_iff_ne_zero.mpr hn
          exact_mod_cast this
        push_cast at hroom
        obtain ⟨h1, h2⟩ := hnext (by omega)
        refine ⟨h1, h2, ?_⟩
        rw [hcount1 i]
        simp only [if_true]
        omega
    obtain ⟨t2, hret, hstore, hothers, hbefore, hcount2⟩ :=
      ih (k + 1) (fun j => if j = k then VoteCall.returned none else calls j)
        (replaceReq s ({ p with tally := t1 } : Poll).toTuple) ({ p with tally := t1 } : Poll)
        (by
          intro g hg
          have : g ≠ k := by omega
          simp [this, hpend g (by omega)])
        (by simp [replaceReq, Poll.toTuple]) hlo hhi hi hinv1
    rw [hfold]
    refine ⟨t2, ?_, ?_, ?_, ?_, ?_⟩
    · intro g h1 h2
      by_cases hg : g = k
      · subst hg
        rw [hbefore g (by omega)]
        simp
      · exact hret g (by omega) (by omega)
    · exact hstore
    · intro id hid
      rw [hothers id hid]
      simp [replaceReq, Poll.toTuple, hid]
    · intro g hg
      rw [hbefore g (by omega)]
      have : g ≠ k := by omega
      simp [this]
    · intro key
      rw [hcount2 key, hcount1 key]
      push_cast
      split <;> omega

/-- C2, as the code has it.  `n` calls of `votePoll` for one option of one poll that
run one at a time (each call issues its select and its replace before the next one
starts) all succeed and raise the count of that option by exactly `n`, every other
count and every other poll staying as they were, provided that the tally of the
poll is well-formed, that its keys and counts and the option index fit an `int8`,
and that the count of the option is at most 128 after the `n` calls: a count of 128
is stored in a wider integer type, which `convertVotes` refuses from then on. -/
theorem sequential_votes_all_counted (n : Nat) (s : Store) (p : Poll) (i : Int)
    (hs : s p.id = some p.toTuple) (hwf : wellFormedTally p.tally = true)
    (hcompact : compactTally p.tally = true)
    (hlo : 0 ≤ i) (hhi : i < (p.options.length : Int)) (hi : i ≤ 127)
    (hroom : tallyCount p.tally i + (n : Int) ≤ 128) :
    ∃ tally : Value,
      (∀ g, g < n → (runSchedule p.id i (sequentialSchedule 0 n) s).1 g = .returned none) ∧
      (runSchedule p.id i (sequentialSchedule 0 n) s).2 p.id =
        some ({ p with tally := tally } : Poll).toTuple ∧
      (∀ id, id ≠ p.id → (runSchedule p.id i (sequentialSchedule 0 n) s).2 id = s id) ∧
      tallyCount tally i = tallyCount p.tally i + n ∧
      (∀ k, k ≠ i → tallyCount tally k = tallyCount p.tally k) := by
  obtain ⟨tally, hret, hstore, hothers, _, hcount⟩ :=
    sequential_run i n 0 (fun _ => .pending) s p (fun _ _ => rfl) hs hlo hhi hi
      (Or.inr ⟨hwf, hcompact, hroom⟩)
  refine ⟨tally, ?_, hstore, hothers, ?_, ?_⟩
  · intro g hg
    exact hret g (Nat.zero_le g) (by omega)
  · simpa using hcount i
  · intro k hk
    simpa [hk] using hcount k

theorem sequential_votes_all_counted_witness :
    freshStore freshPoll.id = some freshPoll.toTuple ∧ wellFormedTally freshPoll.tally = true ∧
    compactTally freshPoll.tally = true ∧ tallyCount freshPoll.tally 0 = 0 ∧
    ∃ tally : Value,
      (∀ g, g < 100 →
        (runSchedule freshPoll.id 0 (sequentialSchedule 0 100) freshStore).1 g = .returned none) ∧
      (runSchedule freshPoll.id 0 (sequentialSchedule 0 100) freshStore).2 freshPoll.id =
        some ({ freshPoll with tally := tally } : Poll).toTuple ∧
      tallyCount tally 0 = tallyCount freshPoll.tally 0 + (100 : Nat) :=
  have h := sequential_votes_all_counted 100 freshStore freshPoll 0 (by decide) (by decide)
    (by decide) (by decide) (by decide) (by decide) (by decide)
  ⟨by decide, by decide, by decide, by decide,
    h.elim fun tally ht => ⟨tally, ht.1, ht.2.1, ht.2.2.2.1⟩⟩

/-- The bound of 128 is met: after the vote that takes a count from 127 to 128 the
stored count is a `uint8`, and the next call of `votePoll` for the same poll fails
with the error of parsing the votes and writes nothing more. -/
theorem vote_after_128_fails :
    (runSchedule fullPoll.id 0 (sequentialSchedule 0 2) fullStore).1 0 = .returned none ∧
    (runSchedule fullPoll.id 0 (sequentialSchedule 0 2) fullStore).1 1 =
      .returned (some (Err.parseVotes VoteErr.invalidVoteValueType)) ∧
    ((runSchedule fullPoll.id 0 (sequentialSchedule 0 2) fullStore).2 fullPoll.id).map
      (fun t => t.votes) = some (.dict [(.int8 0, .wide .uint8 128)]) := by
  decide

/-- C2, as stated, fails: two calls of `votePoll` for option index 0 of a poll just
created, the second issuing its select before the first issued its replace, both
return without error, and the count of the option is 1 afterwards, not 2. -/
theorem concurrent_votes_lose_update :
    (runSchedule "1742".toList 0 [0, 1, 0, 1] freshStore).1 0 = .returned none ∧
    (runSchedule "1742".toList 0 [0, 1, 0, 1] freshStore).1 1 = .returned none ∧
    ((runSchedule "1742".toList 0 [0, 1, 0, 1] freshStore).2 "1742".toList).map
      (fun t => tallyCount t.votes 0) = some 1 := by
  decide

/-! ## The router -/

theorem handlePollCreate_one_reply {σ : Type} (ops : PollOps σ) (pollID : Str) (s : σ)
    (post : Post) (args : List Str) :
    ∃ msg s', handlePollCreate ops pollID s post args = ([⟨msg, post.id⟩], s') := by
  unfold handlePollCreate
  split
  · rename_i title o1 o2 more _
    dsimp only
    rcases h : ops.createPoll s pollID post.userId title (o1 :: o2 :: more) with ⟨_ | err, s'⟩
    · exact ⟨_, _, rfl⟩
    · exact ⟨_, _, rfl⟩
  · exact ⟨_, _, rfl⟩

theorem handlePollVote_one_reply {σ : Type} (ops : PollOps σ) (s : σ) (post : Post)
    (args : List Str) :
    ∃ msg s', handlePollVote ops s post args = ([⟨msg, post.id⟩], s') := by
  unfold handlePollVote
  split
  · rename_i pollID number _
    cases hn : atoi number with
    | none => exact ⟨_, _, rfl⟩
    | some optionNumber =>
      simp only
      split
      · exact ⟨_, _, rfl⟩
      · rcases h : ops.votePoll s pollID (optionNumber - 1) with ⟨_ | err, s'⟩
        · exact ⟨_, _, rfl⟩
        · exact ⟨_, _, rfl⟩
  · exact ⟨_, _, rfl⟩

theorem handlePollShow_one_reply {σ : Type} (ops : PollOps σ) (s : σ) (post : Post)
    (args : List Str) :
    ∃ msg s', handlePollShow ops s post args = ([⟨msg, post.id⟩], s') := by
  unfold handlePollShow
  split
  · rename_i pollID _
    cases h : ops.dbShowPoll s pollID with
    | error err => exact ⟨_, _, rfl⟩
    | ok response => exact ⟨_, _, rfl⟩
  · exact ⟨_, _, rfl⟩

theorem handlePollStop_one_reply {σ : Type} (ops : PollOps σ) (s : σ) (post : Post)
    (args : List Str) :
    ∃ msg s', handlePollStop ops s post args = ([⟨msg, post.id⟩], s') := by
  unfold handlePollStop
  split
  · rename_i pollID _
    rcases h : ops.stopPoll s pollID with ⟨_ | err, s'⟩
    · exact ⟨_, _, rfl⟩
    · exact ⟨_, _, rfl⟩
  · exact ⟨_, _, rfl⟩

theorem handlePollDelete_one_reply {σ : Type} (ops : PollOps σ) (s : σ) (post : Post)
    (args : List Str) :
    ∃ msg s', handlePollDelete ops s post args = ([⟨msg, post.id⟩], s') := by
  unfold handlePollDelete
  split
  · rename_i pollID _
    rcases h : ops.deletePoll s pollID with ⟨_ | err, s'⟩
    · exact ⟨_, _, rfl⟩
    · exact ⟨_, _, rfl⟩
  · exact ⟨_, _, rfl⟩

/-- C9. For every post whose first whitespace-delimited token is `/poll`, and for
every implementation of the five store operations, whatever they return,
`handlePollCommand` returns normally and has sent exactly one message, a reply to
that post. -/
theorem handlePollCommand_sends_one_reply {σ : Type} (ops : PollOps σ) (pollID : Str) (s : σ)
    (post : Post) (h : (fields post.message).head? = some "/poll".toList) :
    ∃ msg s', handlePollCommand ops pollID s post = .ok ([⟨msg, post.id⟩], s') := by
  unfold handlePollCommand
  cases hf : fields post.message with
  | nil => rw [hf] at h; simp at h
  | cons first rest =>
    rw [hf] at h
    simp only [List.head?_cons, Option.some.injEq] at h
    subst h
    simp only [ne_eq, not_true_eq_false, if_false]
    cases rest with
    | nil => exact ⟨_, _, rfl⟩
    | cons subcommand args =>
      simp only
      split
      · obtain ⟨m, s', e⟩ := handlePollCreate_one_reply ops pollID s post args
        exact ⟨m, s', by rw [e]⟩
      · split
        · obtain ⟨m, s', e⟩ := handlePollVote_one_reply ops s post args
          exact ⟨m, s', by rw [e]⟩
        · split
          · obtain ⟨m, s', e⟩ := handlePollShow_one_reply ops s post args
            exact ⟨m, s', by rw [e]⟩
          · split
            · obtain ⟨m, s', e⟩ := handlePollStop_one_reply ops s post args
              exact ⟨m, s', by rw [e]⟩
            · split
              · obtain ⟨m, s', e⟩ := handlePollDelete_one_reply ops s post args
                exact ⟨m, s', by rw [e]⟩
              · split
                · exact ⟨_, _, rfl⟩
                · exact ⟨_, _, rfl⟩

theorem handlePollCommand_sends_one_reply_witness :
    (fields votePost.message).head? = some "/poll".toList ∧
    ∃ msg s', handlePollCommand storeOps "1743".toList colorStore votePost =
      .ok ([⟨msg, votePost.id⟩], s') :=
  ⟨by decide, handlePollCommand_sends_one_reply storeOps "1743".toList colorStore votePost
    (by decide)⟩

theorem fieldsAux_blank (s : Str) (h : ∀ c ∈ s, isSpace c = true) : fieldsAux s [] = [] := by
  induction s with
  | nil => rfl
  | cons c cs ih =>
    have hc : isSpace c = true := h c (List.mem_cons_self _ _)
    simp [fieldsAux, hc, ih (fun d hd => h d (List.mem_cons_of_mem _ hd))]

/-- C10 on the code.  For a post whose message is empty or consists of white space
only, `strings.Fields` returns no token and the index expression `args[0]` of
`handlePollCommand` is out of range: the router does not return, it panics, for
every implementation of the store operations. -/
theorem handlePollCommand_blank_message {σ : Type} (ops : PollOps σ) (pollID : Str) (s : σ)
    (post : Post) (h : ∀ c ∈ post.message, isSpace c = true) :
    handlePollCommand ops pollID s post = .error GoPanic.indexOutOfRange := by
  have hf : fields post.message = [] := fieldsAux_blank post.message h
  simp [handlePollCommand, hf]

theorem handlePollCommand_blank_message_witness :
    handlePollCommand storeOps "1743".toList colorStore emptyPost =
      .error GoPanic.indexOutOfRange ∧
    handlePollCommand storeOps "1743".toList colorStore blankPost =
      .error GoPanic.indexOutOfRange :=
  ⟨handlePollCommand_blank_message storeOps "1743".toList colorStore emptyPost (by decide),
    handlePollCommand_blank_message storeOps "1743".toList colorStore blankPost (by decide)⟩

/-! ## The parser -/

theorem isSpace_of_isRegexSpace (c : Char) (h : isRegexSpace c = true) : isSpace c = true := by
  simp only [isRegexSpace, Bool.or_eq_true, beq_iff_eq] at h
  simp only [isSpace, Bool.or_eq_true, beq_iff_eq, Bool.and_eq_true, decide_eq_true_eq]
  omega

theorem isRegexSpace_of_not_isSpace (c : Char) (h : isSpace c = false) :
    isRegexSpace c = false := by
  cases hr : isRegexSpace c with
  | false => rfl
  | true => rw [isSpace_of_isRegexSpace c hr] at h; cases h

theorem fieldsAux_nil (cur : Str) : fieldsAux [] cur = if cur.isEmpty then [] else [cur] := rfl

theorem fieldsAux_space (c : Char) (rest cur : Str) (hc : isSpace c = true) :
    fieldsAux (c :: rest) cur = fieldsAux [] cur ++ fieldsAux rest [] := by
  cases cur with
  | nil => simp [fieldsAux, hc]
  | cons x xs => simp [fieldsAux, hc]

theorem fieldsAux_word (w rest cur : Str) (hw : ∀ c ∈ w, isSpace c = false) :
    fieldsAux (w ++ rest) cur = fieldsAux rest (cur ++ w) := by
  induction w generalizing cur with
  | nil => simp
  | cons x w ih =>
    have hx : isSpace x = false := hw x (List.mem_cons_self _ _)
    have := ih (cur ++ [x]) (fun c hc => hw c (List.mem_cons_of_mem _ hc))
    have e : cur ++ [x] ++ w = cur ++ x :: w := by simp
    rw [e] at this
    rw [← this]
    simp [fieldsAux, hx]

theorem fieldsAux_split (t rest cur : Str)
    (hrest : rest = [] ∨ ∃ c r, rest = c :: r ∧ isSpace c = true) :
    fieldsAux (t ++ rest) cur = fieldsAux t cur ++ fieldsAux rest [] := by
  induction t generalizing cur with
  | nil =>
    rcases hrest with h | ⟨c, r, h, hc⟩
    · subst h; simp [fieldsAux]
    · subst h
      rw [List.nil_append, fieldsAux_space c r cur hc, fieldsAux_space c r [] hc]
      simp [fieldsAux]
  | cons x t ih =>
    by_cases hx : isSpace x = true
    · rw [List.cons_append, fieldsAux_space x _ cur hx, fieldsAux_space x t cur hx, ih [],
        List.append_assoc]
    · have hx' : isSpace x = false := by simpa using hx
      simp only [List.cons_append, fieldsAux, hx', Bool.false_eq_true, if_false]
      exact ih (cur ++ [x])

theorem fieldsAux_sep (sep rest : Str) (h : ∀ c ∈ sep, isSpace c = true) :
    fieldsAux (sep ++ rest) [] = fieldsAux rest [] := by
  induction sep with
  | nil => rfl
  | cons c sep ih =>
    have hc : isSpace c = true := h c (List.mem_cons_self _ _)
    rw [List.cons_append, fieldsAux_space c _ [] hc,
      ih (fun d hd => h d (List.mem_cons_of_mem _ hd))]
    simp [fieldsAux]

theorem isSeparator_elim (sep : Str) (h : isSeparator sep = true) :
    (∀ c ∈ sep, isSpace c = true) ∧ ∃ c r, sep = c :: r ∧ isSpace c = true := by
  simp only [isSeparator, Bool.and_eq_true, List.all_eq_true] at h
  refine ⟨h.2, ?_⟩
  cases sep with
  | nil => simp at h
  | cons c r => exact ⟨c, r, rfl, h.2 c (List.mem_cons_self _ _)⟩

theorem argsText_start (pieces : List (Str × Arg))
    (hsep : ∀ p ∈ pieces, isSeparator p.1 = true) :
    argsText pieces = [] ∨ ∃ c r, argsText pieces = c :: r ∧ isSpace c = true := by
  cases pieces with
  | nil => left; rfl
  | cons p ps =>
    right
    obtain ⟨_, c, r, hcr, hc⟩ := isSeparator_elim p.1 (hsep p (List.mem_cons_self _ _))
    exact ⟨c, r ++ (p.2.text ++ argsText ps), by simp [argsText, hcr], hc⟩

theorem fields_argsText (pieces : List (Str × Arg))
    (hsep : ∀ p ∈ pieces, isSeparator p.1 = true) :
    fieldsAux (argsText pieces) [] = argFields pieces := by
  induction pieces with
  | nil => rfl
  | cons p ps ih =>
    have hps : ∀ q ∈ ps, isSeparator q.1 = true := fun q hq => hsep q (List.mem_cons_of_mem _ hq)
    obtain ⟨hall, _⟩ := isSeparator_elim p.1 (hsep p (List.mem_cons_self _ _))
    rw [argsText, fieldsAux_sep p.1 _ hall, fieldsAux_split _ _ _ (argsText_start ps hps), ih hps]
    rfl

theorem fields_createLine (sep : Str) (pieces : List (Str × Arg))
    (hsep0 : isSeparator sep = true) (hsep : ∀ p ∈ pieces, isSeparator p.1 = true) :
    fields (createLine sep pieces) = "/poll".toList :: "create".toList :: argFields pieces := by
  obtain ⟨hall, c, r, hcr, hc⟩ := isSeparator_elim sep hsep0
  have h1 : fields (createLine sep pieces) =
      fieldsAux "/poll".toList [] ++ fieldsAux (sep ++ ("create".toList ++ argsText pieces)) [] := by
    unfold fields createLine
    exact fieldsAux_split _ _ _ (Or.inr ⟨c, r ++ ("create".toList ++ argsText pieces),
      by simp [hcr], hc⟩)
  rw [h1, fieldsAux_sep sep _ hall, fieldsAux_split _ _ _ (argsText_start pieces hsep),
    fields_argsText pieces hsep]
  rfl

theorem joinSpace_cons (a : Str) (l : List Str) (hl : l ≠ []) :
    joinSpace (a :: l) = a ++ spaceChar :: joinSpace l := by
  cases l with
  | nil => exact absurd rfl hl
  | cons b rest => rfl

theorem joinSpace_ne_nil (l : List Str) (h : joinSpace l ≠ []) : l ≠ [] := by
  intro hl
  subst hl
  exact h rfl

theorem joinSpace_append (a b : List Str) (ha : a ≠ []) (hb : b ≠ []) :
    joinSpace (a ++ b) = joinSpace a ++ spaceChar :: joinSpace b := by
  induction a with
  | nil => exact absurd rfl ha
  | cons x a ih =>
    cases a with
    | nil => simpa [joinSpace] using joinSpace_cons x b hb
    | cons y a =>
      have h1 : joinSpace (x :: y :: a ++ b) = x ++ spaceChar :: joinSpace (y :: a ++ b) :=
        joinSpace_cons x (y :: a ++ b) (by simp)
      have h2 := ih (by simp)
      simp only [List.cons_append] at h1 h2 ⊢
      rw [h1, h2]
      simp [joinSpace]

theorem singleSpaced_cons_word (x : Char) (rest : Str) (hx : isSpace x = false)
    (h : singleSpaced (x :: rest) = true) : singleSpaced rest = true := by
  cases rest with
  | nil => rfl
  | cons d rest => simpa [singleSpaced, hx] using h

theorem singleSpaced_cons_space (x : Char) (rest : Str) (hx : isSpace x = true)
    (h : singleSpaced (x :: rest) = true) :
    x = spaceChar ∧ singleSpaced rest = true ∧
      (rest = [] ∨ ∃ y r, rest = y :: r ∧ isSpace y = false) := by
  cases rest with
  | nil =>
    simp [singleSpaced, hx] at h
    exact ⟨h, rfl, Or.inl rfl⟩
  | cons d rest =>
    simp [singleSpaced, hx] at h
    exact ⟨h.1.1, h.2, Or.inr ⟨d, rest, rfl, h.1.2⟩⟩

theorem joinSpace_fieldsAux_closed (q : Char) (hq : isSpace q = false) (c : Str) :
    ∀ cur : Str, singleSpaced c = true →
      (cur ≠ [] ∨ c = [] ∨ ∃ y r, c = y :: r ∧ isSpace y = false) →
      joinSpace (fieldsAux (c ++ [q]) cur) = cur ++ c ++ [q] := by
  induction c with
  | nil =>
    intro cur _ _
    simp [fieldsAux, hq, joinSpace]
  | cons x rest ih =>
    intro cur hs hstart
    by_cases hx : isSpace x = true
    · have hcur : cur ≠ [] := by
        rcases hstart with h | h | ⟨y, r, h, hy⟩
        · exact h
        · cases h
        · cases h
          rw [hx] at hy; cases hy
      obtain ⟨hxs, hrest, hnext⟩ := singleSpaced_cons_space x rest hx hs
      have ih' := ih [] hrest (Or.inr hnext)
      simp only [List.nil_append] at ih'
      have hne : fieldsAux (rest ++ [q]) [] ≠ [] :=
        joinSpace_ne_nil _ (by rw [ih']; simp)
      have hstep : fieldsAux (x :: rest ++ [q]) cur = cur :: fieldsAux (rest ++ [q]) [] := by
        cases cur with
        | nil => exact absurd rfl hcur
        | cons a b => simp [fieldsAux, hx]
      rw [hstep, joinSpace_cons _ _ hne, ih', hxs]
      simp
    · have hx' : isSpace x = false := by simpa using hx
      have hs' := singleSpaced_cons_word x rest hx' hs
      have ih' := ih (cur ++ [x]) hs' (Or.inl (by simp))
      have hstep : fieldsAux (x :: rest ++ [q]) cur = fieldsAux (rest ++ [q]) (cur ++ [x]) := by
        simp [fieldsAux, hx']
      rw [hstep, ih']
      simp

theorem valid_plain (tok : Str) (h : (Arg.plain tok).valid = true) :
    tok ≠ [] ∧ ∀ c ∈ tok, isSpace c = false ∧ c ≠ quoteChar := by
  simp only [Arg.valid, Bool.and_eq_true, List.all_eq_true, Bool.not_eq_true', bne_iff_ne] at h
  refine ⟨?_, h.2⟩
  intro hn
  subst hn
  simp at h

theorem valid_quoted (content : Str) (h : (Arg.quoted content).valid = true) :
    content ≠ [] ∧ (∀ c ∈ content, c ≠ quoteChar) ∧ singleSpaced content = true := by
  simp only [Arg.valid, Bool.and_eq_true, List.all_eq_true, Bool.not_eq_true', bne_iff_ne] at h
  refine ⟨?_, h.1.2, h.2⟩
  intro hn
  subst hn
  simp at h

theorem joinSpace_fields_text (a : Arg) (h : a.valid = true) :
    joinSpace (fields a.text) = a.text ∧ fields a.text ≠ [] ∧ a.text ≠ [] := by
  have key : joinSpace (fields a.text) = a.text ∧ a.text ≠ [] := by
    cases a with
    | plain tok =>
      obtain ⟨hne, hall⟩ := valid_plain tok h
      have hf : fields tok = [tok] := by
        have := fieldsAux_word tok [] [] (fun c hc => (hall c hc).1)
        simp only [List.append_nil, List.nil_append] at this
        unfold fields
        rw [this]
        cases tok with
        | nil => exact absurd rfl hne
        | cons x xs => simp [fieldsAux]
      exact ⟨by simp [Arg.text, hf, joinSpace], hne⟩
    | quoted content =>
      obtain ⟨_, _, hs⟩ := valid_quoted content h
      have hq : isSpace quoteChar = false := by decide
      have := joinSpace_fieldsAux_closed quoteChar hq content [quoteChar] hs (Or.inl (by simp))
      refine ⟨?_, by simp [Arg.text]⟩
      have hstep : fields (Arg.quoted content).text = fieldsAux (content ++ [quoteChar]) [quoteChar] := by
        simp [fields, Arg.text, fieldsAux, hq]
      rw [hstep, this]
      simp [Arg.text]
  exact ⟨key.1, joinSpace_ne_nil _ (by rw [key.1]; exact key.2), key.2⟩

theorem argFields_ne_nil (p : Str × Arg) (ps : List (Str × Arg)) (h : p.2.valid = true) :
    argFields (p :: ps) ≠ [] := by
  obtain ⟨_, hne, _⟩ := joinSpace_fields_text p.2 h
  simp [argFields, hne]

theorem joinSpace_argFields (pieces : List (Str × Arg)) (hv : ∀ p ∈ pieces, p.2.valid = true) :
    joinSpace (argFields pieces) = joinSpace (pieces.map fun p => p.2.text) := by
  induction pieces with
  | nil => rfl
  | cons p ps ih =>
    obtain ⟨hj, hne, _⟩ := joinSpace_fields_text p.2 (hv p (List.mem_cons_self _ _))
    have hps : ∀ q ∈ ps, q.2.valid = true := fun q hq => hv q (List.mem_cons_of_mem _ hq)
    cases ps with
    | nil => simp [argFields, hj, joinSpace]
    | cons q qs =>
      have hne2 : argFields (q :: qs) ≠ [] :=
        argFields_ne_nil q qs (hps q (List.mem_cons_self _ _))
      have h1 : argFields (p :: q :: qs) = fields p.2.text ++ argFields (q :: qs) := rfl
      rw [h1, joinSpace_append _ _ hne hne2, hj, ih hps]
      rfl

theorem takeWhile_dropWhile_stop (f : Char → Bool) (w rest : Str)
    (hw : ∀ c ∈ w, f c = true) (hrest : rest = [] ∨ ∃ c r, rest = c :: r ∧ f c = false) :
    (w ++ rest).takeWhile f = w ∧ (w ++ rest).dropWhile f = rest := by
  induction w with
  | nil =>
    rcases hrest with h | ⟨c, r, h, hc⟩
    · subst h; simp
    · subst h; simp [List.takeWhile, List.dropWhile, hc]
  | cons x w ih =>
    have hx : f x = true := hw x (List.mem_cons_self _ _)
    obtain ⟨h1, h2⟩ := ih (fun c hc => hw c (List.mem_cons_of_mem _ hc))
    simp [List.takeWhile, List.dropWhile, hx, h1, h2]

theorem findAllFrom_nil (fuel : Nat) : findAllFrom fuel [] = [] := by
  cases fuel <;> rfl

theorem findAllFrom_space (fuel : Nat) (rest : Str) :
    findAllFrom (fuel + 1) (spaceChar :: rest) = findAllFrom fuel rest := by
  have h1 : matchQuoted (spaceChar :: rest) = none := by
    have : ¬ spaceChar = quoteChar := by decide
    simp [matchQuoted, this]
  have h2 : matchToken (spaceChar :: rest) = none := by
    have : isRegexSpace spaceChar = true := by decide
    simp [matchToken, List.takeWhile, this]
  simp [findAllFrom, h1, h2]

theorem findAllFrom_arg (a : Arg) (h : a.valid = true) (fuel : Nat) (tail : Str)
    (htail : tail = [] ∨ ∃ r, tail = spaceChar :: r) :
    ∃ m : Str × Str, findAllFrom (fuel + 1) (a.text ++ tail) = m :: findAllFrom fuel tail ∧
      (if m.2 ≠ [] then m.2 else m.1) = a.value := by
  cases a with
  | plain tok =>
    obtain ⟨hne, hall⟩ := valid_plain tok h
    cases tok with
    | nil => exact absurd rfl hne
    | cons x xs =>
      have hx : ¬ x = quoteChar := (hall x (List.mem_cons_self _ _)).2
      have h1 : matchQuoted (x :: xs ++ tail) = none := by
        simp [matchQuoted, hx]
      have hstop : tail = [] ∨ ∃ c r, tail = c :: r ∧ (fun d => !isRegexSpace d) c = false := by
        rcases htail with ht | ⟨r, ht⟩
        · exact Or.inl ht
        · exact Or.inr ⟨spaceChar, r, ht, by decide⟩
      obtain ⟨ht, hd⟩ := takeWhile_dropWhile_stop (fun d => !isRegexSpace d) (x :: xs) tail
        (by
          intro c hc
          simp [isRegexSpace_of_not_isSpace c (hall c hc).1]) hstop
      have h2 : matchToken (x :: xs ++ tail) = some (x :: xs, tail) := by
        simp only [matchToken, ht, hd]
      refine ⟨(x :: xs, []), ?_, by simp [Arg.value]⟩
      show findAllFrom (fuel + 1) (x :: (xs ++ tail)) = _
      have h1' : matchQuoted (x :: (xs ++ tail)) = none := h1
      have h2' : matchToken (x :: (xs ++ tail)) = some (x :: xs, tail) := h2
      simp only [findAllFrom, h1', h2']
  | quoted content =>
    obtain ⟨hne, hall, _⟩ := valid_quoted content h
    obtain ⟨ht, hd⟩ := takeWhile_dropWhile_stop (fun d => d != quoteChar) content
      (quoteChar :: tail) (by
        intro c hc
        simpa using hall c hc) (Or.inr ⟨quoteChar, tail, rfl, by simp⟩)
    have h1 : matchQuoted (quoteChar :: (content ++ quoteChar :: tail)) = some (content, tail) := by
      cases content with
      | nil => exact absurd rfl hne
      | cons x xs => simp only [matchQuoted, if_true, ht, hd]
    refine ⟨(quoteChar :: content ++ [quoteChar], content), ?_, by simp [Arg.value, hne]⟩
    have e : (Arg.quoted content).text ++ tail = quoteChar :: (content ++ quoteChar :: tail) := by
      simp [Arg.text]
    rw [e]
    simp only [findAllFrom, h1]

theorem findAllFrom_args (args : List Arg) (hv : ∀ a ∈ args, a.valid = true) :
    ∀ fuel : Nat, (joinSpace (args.map Arg.text)).length ≤ fuel →
      (findAllFrom fuel (joinSpace (args.map Arg.text))).map
        (fun m => if m.2 ≠ [] then m.2 else m.1) = args.map Arg.value := by
  induction args with
  | nil =>
    intro fuel _
    simp [joinSpace, findAllFrom_nil]
  | cons a rest ih =>
    intro fuel hfuel
    have ha : a.valid = true := hv a (List.mem_cons_self _ _)
    have hrest : ∀ b ∈ rest, b.valid = true := fun b hb => hv b (List.mem_cons_of_mem _ hb)
    obtain ⟨_, _, hne⟩ := joinSpace_fields_text a ha
    have hlen : 1 ≤ a.text.length := by
      cases hta : a.text with
      | nil => exact absurd hta hne
      | cons x xs => simp
    cases rest with
    | nil =>
      simp only [List.map_cons, List.map_nil, joinSpace] at hfuel ⊢
      obtain ⟨f, rfl⟩ : ∃ f, fuel = f + 1 := ⟨fuel - 1, by omega⟩
      obtain ⟨m, hm, hpick⟩ := findAllFrom_arg a ha f [] (Or.inl rfl)
      rw [List.append_nil] at hm
      rw [hm, findAllFrom_nil]
      simp only [List.map_cons, List.map_nil]
      rw [hpick]
    | cons b rest =>
      have hj : joinSpace ((a :: b :: rest).map Arg.text) =
          a.text ++ spaceChar :: joinSpace ((b :: rest).map Arg.text) := rfl
      rw [hj] at hfuel ⊢
      simp only [List.length_append, List.length_cons] at hfuel
      obtain ⟨f, rfl⟩ : ∃ f, fuel = f + 1 + 1 := ⟨fuel - 2, by omega⟩
      obtain ⟨m, hm, hpick⟩ := findAllFrom_arg a ha (f + 1)
        (spaceChar :: joinSpace ((b :: rest).map Arg.text)) (Or.inr ⟨_, rfl⟩)
      rw [hm, findAllFrom_space]
      have := ih hrest f (by omega)
      simp only [List.map_cons] at this ⊢
      rw [this, hpick]

/-- C8, as the code has it.  For every sequence of arguments, each of them a
non-empty token free of white space and of double quotes, or a double-quoted string
whose content is non-empty, has no double quote and has white space only as single
spaces (every white space character of the content is a space U+0020, no two of
them adjacent), the command line `/poll create` followed by these arguments, each
after one or more white space characters, parses (`strings.Fields` in the router,
then `parsePollData`) to exactly that sequence, in order, the quotes removed and the
content of each quoted string kept character for character. -/
theorem createArguments_parse (sep : Str) (pieces : List (Str × Arg))
    (hsep0 : isSeparator sep = true)
    (hpieces : ∀ p ∈ pieces, isSeparator p.1 = true ∧ p.2.valid = true) :
    createArguments (createLine sep pieces) = pieces.map fun p => p.2.value := by
  have hsep : ∀ p ∈ pieces, isSeparator p.1 = true := fun p hp => (hpieces p hp).1
  have hv : ∀ p ∈ pieces, p.2.valid = true := fun p hp => (hpieces p hp).2
  have hargs : ∀ a ∈ pieces.map Prod.snd, a.valid = true := by
    intro a ha
    obtain ⟨p, hp, rfl⟩ := List.mem_map.mp ha
    exact hv p hp
  have hjoin : joinSpace (argFields pieces) = joinSpace ((pieces.map Prod.snd).map Arg.text) := by
    rw [joinSpace_argFields pieces hv]
    simp [Function.comp_def]
  unfold createArguments parsePollData findAllStringSubmatch
  rw [fields_createLine sep pieces hsep0 hsep]
  simp only [List.drop_succ_cons, List.drop_zero]
  rw [hjoin, findAllFrom_args (pieces.map Prod.snd) hargs _ (le_refl _)]
  simp [Function.comp_def]

theorem createArguments_parse_witness :
    isSeparator [spaceChar] = true ∧
    (∀ p ∈ colorArgs, isSeparator p.1 = true ∧ p.2.valid = true) ∧
    createLine [spaceChar] colorArgs =
      "/poll create ".toList ++ quoteChar :: "Pick a color".toList ++ quoteChar :: spaceChar ::
        quoteChar :: "Red".toList ++ quoteChar :: spaceChar :: quoteChar :: "Deep Blue".toList ++
        [quoteChar] ∧
    createArguments (createLine [spaceChar] colorArgs) =
      ["Pick a color".toList, "Red".toList, "Deep Blue".toList] :=
  ⟨by decide, by decide, by decide,
    createArguments_parse [spaceChar] colorArgs (by decide) (by decide)⟩

/-- C8, as stated, fails for a quoted string with two white space characters in a
row: the router splits the message at every run of white space and the handler
joins the pieces with single spaces, so the content `a  b` (two spaces) comes out as
`a b` (one space). -/
theorem createArguments_collapse_spaces :
    (∀ p ∈ wideArgs, isSeparator p.1 = true ∧ p.2.asSpecified = true) ∧
    createArguments (createLine [spaceChar] wideArgs) = ["a b".toList] ∧
    createArguments (createLine [spaceChar] wideArgs) ≠ wideArgs.map (fun p => p.2.value) := by
  decide

/-! ### The fuel of the match loop is always enough -/

theorem dropWhile_length_le (f : Char → Bool) (s : Str) : (s.dropWhile f).length ≤ s.length := by
  induction s with
  | nil => simp
  | cons c cs ih =>
    simp only [List.dropWhile]
    split
    · simp only [List.length_cons]; omega
    · simp

theorem matchQuoted_shorter (s body after : Str) (h : matchQuoted s = some (body, after)) :
    after.length < s.length := by
  cases s with
  | nil => simp [matchQuoted] at h
  | cons c rest =>
    have hlen := dropWhile_length_le (fun d => d != quoteChar) rest
    simp only [matchQuoted] at h
    split at h
    · split at h
      · cases h
      · cases h
      · rename_i hd _
        simp only [Option.some.injEq, Prod.mk.injEq] at h
        rw [hd] at hlen
        simp only [List.length_cons] at hlen ⊢
        rw [← h.2]
        omega
    · cases h

theorem matchToken_shorter (s tok after : Str) (h : matchToken s = some (tok, after)) :
    after.length < s.length := by
  cases s with
  | nil => simp [matchToken] at h
  | cons c rest =>
    simp only [matchToken] at h
    split at h
    · cases h
    · rename_i hne
      simp only [Option.some.injEq, Prod.mk.injEq] at h
      rw [← h.2]
      by_cases hc : (!isRegexSpace c) = true
      · have := dropWhile_length_le (fun d => !isRegexSpace d) rest
        simp only [List.dropWhile, hc, List.length_cons]
        omega
      · exfalso
        apply hne
        simp only [Bool.not_eq_true] at hc
        simp [List.takeWhile, hc]

theorem findAllFrom_fuel (n : Nat) :
    ∀ (s : Str) (f1 f2 : Nat), s.length ≤ n → s.length ≤ f1 → s.length ≤ f2 →
      findAllFrom f1 s = findAllFrom f2 s := by
  induction n with
  | zero =>
    intro s f1 f2 hn _ _
    have : s = [] := List.length_eq_zero.mp (by omega)
    subst this
    rw [findAllFrom_nil, findAllFrom_nil]
  | succ n ih =>
    intro s f1 f2 hn h1 h2
    cases s with
    | nil => rw [findAllFrom_nil, findAllFrom_nil]
    | cons c cs =>
      simp only [List.length_cons] at hn h1 h2
      obtain ⟨g1, rfl⟩ : ∃ g, f1 = g + 1 := ⟨f1 - 1, by omega⟩
      obtain ⟨g2, rfl⟩ : ∃ g, f2 = g + 1 := ⟨f2 - 1, by omega⟩
      simp only [findAllFrom]
      cases hq : matchQuoted (c :: cs) with
      | some r =>
        obtain ⟨body, after⟩ := r
        have := matchQuoted_shorter _ _ _ hq
        simp only [List.length_cons] at this
        simp only
        rw [ih after g1 g2 (by omega) (by omega) (by omega)]
      | none =>
        cases ht : matchToken (c :: cs) with
        | some r =>
          obtain ⟨tok, after⟩ := r
          have := matchToken_shorter _ _ _ ht
          simp only [List.length_cons] at this
          simp only
          rw [ih after g1 g2 (by omega) (by omega) (by omega)]
        | none =>
          simp only
          exact ih cs g1 g2 (by omega) (by omega) (by omega)

theorem findAllStringSubmatch_fuel (s : Str) (fuel : Nat) (h : s.length ≤ fuel) :
    findAllFrom fuel s = findAllStringSubmatch s :=
  findAllFrom_fuel s.length s fuel s.length (le_refl _) h (le_refl _)

end PollBot
